import Mathlib

/-!
Verification of the elliptic-curve engine of `src/torsion/src/ecc.c`
(scalar field, short-Weierstrass Jacobian group, Montgomery ladder,
twisted-Edwards decoding, and the ECDSA protocol layer).

The prime-field backend is an external collaborator in the C code (an
opaque vtable of mod-p operations); following that interface boundary we
model a field element as `ZMod p`.  Scalars are saturated limb arrays in
the C code; we model a scalar by its numeric value (a natural number) and
translate each limb-level routine into the arithmetic it performs on
values.  The Barrett parameters are kept explicit: `k` is the shift in
bits (`sc->shift * GMP_NUMB_BITS`) and `m = 2^k / n` the reduction
constant computed by `scalar_field_set`.
-/

/-! ### Scalar field (`sc_*`), value-level translation of the limb code -/

/-- `sc_neg`: `r = n - a`, masked to zero when `a = 0`. -/
def sc_neg (n a : ℕ) : ℕ :=
  if a = 0 then 0 else n - a

/-- `sc_add`: add, then subtract `n` once when the sum reaches `n`
(`mpn_cnd_select(cy == 0, ...)`). -/
def sc_add (n a b : ℕ) : ℕ :=
  if n ≤ a + b then a + b - n else a + b

/-- `sc_sub`: subtraction via `sc_add` of the negation. -/
def sc_sub (n a b : ℕ) : ℕ :=
  sc_add n a (sc_neg n b)

/-- `sc_reduce`: Barrett reduction.  `h = (a * m) >> k`, `u = a - h * n`,
then a single conditional subtract of `n`. -/
def sc_reduce (n m k a : ℕ) : ℕ :=
  let h := a * m / 2 ^ k
  let u := a - h * n
  if n ≤ u then u - n else u

/-- `sc_mul`: multiply then Barrett-reduce. -/
def sc_mul (n m k a b : ℕ) : ℕ :=
  sc_reduce n m k (a * b)

/-- `sc_sqr`: square then Barrett-reduce. -/
def sc_sqr (n m k a : ℕ) : ℕ :=
  sc_reduce n m k (a * a)

/-- `sc_mulshift`: multiply, record bit `s - 1`, shift right by `s`, and
add the recorded bit back as a round-to-nearest increment. -/
def sc_mulshift (a b s : ℕ) : ℕ :=
  a * b / 2 ^ s + (a * b / 2 ^ (s - 1)) % 2

/-- `sc_import`: limb import of a `size(n)`-byte string (value `v`);
success iff `v < n` (`bytes_lt(raw, sc->raw)`). -/
def sc_import (n v : ℕ) : ℕ × Bool :=
  (v, decide (v < n))

/-- `sc_import_weak`: single conditional subtract of `n`. -/
def sc_import_weak (n v : ℕ) : ℕ × Bool :=
  (if v < n then v else v - n, decide (v < n))

/-- `sc_import_strong`: full Barrett reduction. -/
def sc_import_strong (n m k v : ℕ) : ℕ × Bool :=
  (sc_reduce n m k v, decide (v < n))

/-- `sc_import_reduce`: weak reduction when `bits(n)` is a multiple of 8,
otherwise strong (Barrett) reduction. -/
def sc_import_reduce (n m k bits v : ℕ) : ℕ × Bool :=
  if bits % 8 = 0 then sc_import_weak n v else sc_import_strong n m k v

/-- `sc_is_high`: `a > n/2` (comparison against `sc->nh = n >> 1`). -/
def sc_is_high (n a : ℕ) : Bool :=
  decide (n / 2 < a)

/-- `sc_neg_cond`: conditional negation. -/
def sc_neg_cond (n a : ℕ) (flag : Bool) : ℕ :=
  if flag then sc_neg n a else a

/-- `sc_minimize`: fold into `[0, n/2]`, returning the sign flag. -/
def sc_minimize (n a : ℕ) : ℕ × Bool :=
  (sc_neg_cond n a (sc_is_high n a), sc_is_high n a)

/-- The loop of `sc_pow`: square-and-multiply from bit `i - 1` down to
bit `0` of the exponent `e`. -/
def sc_pow_loop (n m k a e : ℕ) : ℕ → ℕ → ℕ
  | 0, b => b
  | i + 1, b =>
      let b2 := sc_sqr n m k b
      sc_pow_loop n m k a e i (if e.testBit i then sc_mul n m k b2 a else b2)

/-- `sc_pow`: exponentiation scanning `sc->bits` bits of `e`. -/
def sc_pow (n m k bits a e : ℕ) : ℕ :=
  sc_pow_loop n m k a e bits 1

/-- `sc_invert`: Fermat exponentiation by `n - 2`; the returned flag is
`a ≠ 0`. -/
def sc_invert (n m k bits a : ℕ) : ℕ × Bool :=
  (sc_pow n m k bits a (n - 2), decide (a ≠ 0))

/-! #### Barrett reduction facts -/

theorem lt_div_succ_mul (a b : ℕ) (hb : 0 < b) : a < (a / b + 1) * b := by
  have h1 : a % b < b := Nat.mod_lt a hb
  have h2 : b * (a / b) + a % b = a := Nat.div_add_mod a b
  calc a = b * (a / b) + a % b := h2.symm
    _ < b * (a / b) + b := by omega
    _ = (a / b + 1) * b := by ring

theorem barrett_quot_mul_le (n m k a : ℕ) (hm : m = 2 ^ k / n) :
    a * m / 2 ^ k * n ≤ a := by
  have hk : 0 < 2 ^ k := Nat.pos_pow_of_pos k (by norm_num)
  rcases Nat.eq_zero_or_pos n with hn | hn
  · simp [hn]
  have hmn : m * n ≤ 2 ^ k := by
    rw [hm]; exact Nat.div_mul_le_self _ _
  have h1 : a * m / 2 ^ k * n ≤ a * m * n / 2 ^ k := by
    rw [Nat.le_div_iff_mul_le hk]
    have : a * m / 2 ^ k * 2 ^ k ≤ a * m := Nat.div_mul_le_self _ _
    calc a * m / 2 ^ k * n * 2 ^ k = a * m / 2 ^ k * 2 ^ k * n := by ring
      _ ≤ a * m * n := Nat.mul_le_mul_right n this
  have h2 : a * m * n / 2 ^ k ≤ a := by
    have : a * m * n ≤ a * 2 ^ k := by
      calc a * m * n = a * (m * n) := by ring
        _ ≤ a * 2 ^ k := Nat.mul_le_mul_left a hmn
    calc a * m * n / 2 ^ k ≤ a * 2 ^ k / 2 ^ k := Nat.div_le_div_right this
      _ = a := Nat.mul_div_cancel a hk
  exact le_trans h1 h2

theorem barrett_residue_lt (n m k a : ℕ) (hn : 0 < n) (hm : m = 2 ^ k / n)
    (ha : a < 2 ^ k) : a - a * m / 2 ^ k * n < 2 * n := by
  have hk : 0 < 2 ^ k := Nat.pos_pow_of_pos k (by norm_num)
  set h := a * m / 2 ^ k with hh
  -- 2^k < m * n + n
  have h1 : 2 ^ k < m * n + n := by
    have := lt_div_succ_mul (2 ^ k) n hn
    rw [← hm] at this
    calc 2 ^ k < (m + 1) * n := this
      _ = m * n + n := by ring
  -- a * m < (h + 1) * 2 ^ k
  have h2 : a * m < (h + 1) * 2 ^ k := lt_div_succ_mul (a * m) (2 ^ k) hk
  -- combine: a * 2^k < (h + 2) * n * 2^k
  have h3 : a * 2 ^ k < (h + 2) * n * 2 ^ k := by
    calc a * 2 ^ k ≤ a * (m * n + n) := Nat.mul_le_mul_left a (le_of_lt h1)
      _ = a * m * n + a * n := by ring
      _ < (h + 1) * 2 ^ k * n + a * n := by
          have h2' : a * m * n < (h + 1) * 2 ^ k * n :=
            (Nat.mul_lt_mul_right hn).2 h2
          omega
      _ ≤ (h + 1) * 2 ^ k * n + 2 ^ k * n := by
          have : a * n ≤ 2 ^ k * n := Nat.mul_le_mul_right n (le_of_lt ha)
          omega
      _ = (h + 2) * n * 2 ^ k := by ring
  have h4 : a < (h + 2) * n := Nat.lt_of_mul_lt_mul_right h3
  have h5 : h * n ≤ a := barrett_quot_mul_le n m k a hm
  have h6 : (h + 2) * n = h * n + 2 * n := by ring
  omega

/-- Barrett reduction computes the remainder mod `n`, ending in a single
conditional subtract. -/
theorem sc_reduce_eq_mod (n m k a : ℕ) (hn : 0 < n) (hm : m = 2 ^ k / n)
    (ha : a < 2 ^ k) : sc_reduce n m k a = a % n := by
  unfold sc_reduce
  set h := a * m / 2 ^ k with hh
  set u := a - h * n with hu
  have h5 : h * n ≤ a := barrett_quot_mul_le n m k a hm
  have h6 : u < 2 * n := barrett_residue_lt n m k a hn hm ha
  have ha' : a = u + h * n := by omega
  have hmod : a % n = u % n := by
    rw [ha', Nat.add_mul_mod_self_right]
  by_cases hc : n ≤ u
  · rw [if_pos hc, hmod]
    have : u % n = (u - n) % n := by
      conv_lhs => rw [show u = u - n + n by omega]
      rw [Nat.add_mod_right]
    rw [this, Nat.mod_eq_of_lt (by omega)]
  · rw [if_neg hc, hmod, Nat.mod_eq_of_lt (by omega)]

theorem sc_reduce_lt (n m k a : ℕ) (hn : 0 < n) (hm : m = 2 ^ k / n)
    (ha : a < 2 ^ k) : sc_reduce n m k a < n := by
  rw [sc_reduce_eq_mod n m k a hn hm ha]
  exact Nat.mod_lt _ hn

/-! #### Range preservation of the scalar operations -/

theorem sc_add_lt (n a b : ℕ) (ha : a < n) (hb : b < n) : sc_add n a b < n := by
  unfold sc_add; split <;> omega

theorem sc_neg_lt (n a : ℕ) (hn : 0 < n) (ha : a < n) : sc_neg n a < n := by
  unfold sc_neg; split <;> omega

theorem sc_sub_lt (n a b : ℕ) (hn : 0 < n) (ha : a < n) (hb : b < n) :
    sc_sub n a b < n :=
  sc_add_lt n a _ ha (sc_neg_lt n b hn hb)

theorem sc_mul_lt (n m k a b : ℕ) (hn : 0 < n) (hm : m = 2 ^ k / n)
    (hnk : n * n ≤ 2 ^ k) (ha : a < n) (hb : b < n) : sc_mul n m k a b < n := by
  unfold sc_mul
  exact sc_reduce_lt n m k _ hn hm
    (lt_of_lt_of_le (Nat.mul_lt_mul_of_lt_of_le ha (le_of_lt hb) hn) hnk)

theorem sc_sqr_lt (n m k a : ℕ) (hn : 0 < n) (hm : m = 2 ^ k / n)
    (hnk : n * n ≤ 2 ^ k) (ha : a < n) : sc_sqr n m k a < n :=
  sc_mul_lt n m k a a hn hm hnk ha ha

theorem sc_minimize_lt (n a : ℕ) (hn : 0 < n) (ha : a < n) :
    (sc_minimize n a).1 < n := by
  unfold sc_minimize sc_neg_cond
  by_cases h : sc_is_high n a = true
  · simp only [h, if_pos]
    exact sc_neg_lt n a hn ha
  · simp only [h]
    simpa using ha

theorem sc_pow_loop_lt (n m k a e : ℕ) (hn : 1 < n) (hm : m = 2 ^ k / n)
    (hnk : n * n ≤ 2 ^ k) (ha : a < n) :
    ∀ i b, b < n → sc_pow_loop n m k a e i b < n := by
  intro i
  induction i with
  | zero => intro b hb; simpa [sc_pow_loop] using hb
  | succ j ih =>
      intro b hb
      have h2 : sc_sqr n m k b < n := sc_sqr_lt n m k b (by omega) hm hnk hb
      unfold sc_pow_loop
      split
      · exact ih _ (sc_mul_lt n m k _ a (by omega) hm hnk h2 ha)
      · exact ih _ h2

theorem sc_invert_lt (n m k bits a : ℕ) (hn : 1 < n) (hm : m = 2 ^ k / n)
    (hnk : n * n ≤ 2 ^ k) (ha : a < n) : (sc_invert n m k bits a).1 < n := by
  unfold sc_invert sc_pow
  exact sc_pow_loop_lt n m k a (n - 2) hn hm hnk ha bits 1 hn

theorem sc_import_reduce_lt (n m k bits v : ℕ) (hn : 0 < n)
    (hm : m = 2 ^ k / n) (hbl : 2 ^ (bits - 1) ≤ n)
    (hb : 0 < bits) (hv : v < 2 ^ (8 * ((bits + 7) / 8)))
    (hsk : 8 * ((bits + 7) / 8) ≤ k) :
    (sc_import_reduce n m k bits v).1 < n := by
  unfold sc_import_reduce
  split
  · -- weak path: bits % 8 = 0, so the import reads exactly `bits` bits
    rename_i h8
    have hsz : 8 * ((bits + 7) / 8) = bits := by omega
    have hv' : v < 2 ^ bits := by rw [← hsz]; exact hv
    have h2n : 2 ^ bits ≤ 2 * n := by
      calc 2 ^ bits = 2 * 2 ^ (bits - 1) := by
            rw [← pow_succ']; congr 1; omega
        _ ≤ 2 * n := by omega
    unfold sc_import_weak
    simp only
    split <;> omega
  · -- strong path: full Barrett reduction
    unfold sc_import_strong
    simp only
    exact sc_reduce_lt n m k v hn hm
      (lt_of_lt_of_le hv (Nat.pow_le_pow_right (by norm_num) hsk))

theorem sc_neg_zero (n : ℕ) : sc_neg n 0 = 0 := rfl

/-- C5: every scalar-field operation preserves full reduction into
`[0, n)`: `sc_add`, `sc_sub`, `sc_neg`, `sc_mul`, `sc_sqr`,
`sc_import_reduce`, `sc_invert` and `sc_minimize` map operands in `[0, n)`
to results in `[0, n)`; `sc_neg 0 = 0`; and the Barrett reduction of any
value below `2^k` ends in a single conditional subtract of `n` (the
pre-select residue is already below `2·n`). -/
theorem scalar_ops_preserve_reduction (n m k bits : ℕ) (a b v c : ℕ)
    (hn : 1 < n) (hm : m = 2 ^ k / n) (hnk : n * n ≤ 2 ^ k)
    (hbl : 2 ^ (bits - 1) ≤ n) (hb : 0 < bits)
    (hv : v < 2 ^ (8 * ((bits + 7) / 8))) (hsk : 8 * ((bits + 7) / 8) ≤ k)
    (ha : a < n) (hb' : b < n) (hc : c < 2 ^ k) :
    sc_add n a b < n ∧
    sc_sub n a b < n ∧
    sc_neg n a < n ∧
    sc_mul n m k a b < n ∧
    sc_sqr n m k a < n ∧
    (sc_import_reduce n m k bits v).1 < n ∧
    (sc_invert n m k bits a).1 < n ∧
    (sc_minimize n a).1 < n ∧
    sc_neg n 0 = 0 ∧
    c - c * m / 2 ^ k * n < 2 * n := by
  have hn0 : 0 < n := by omega
  refine ⟨sc_add_lt n a b ha hb', sc_sub_lt n a b hn0 ha hb',
    sc_neg_lt n a hn0 ha, sc_mul_lt n m k a b hn0 hm hnk ha hb',
    sc_sqr_lt n m k a hn0 hm hnk ha,
    sc_import_reduce_lt n m k bits v hn0 hm hbl hb hv hsk,
    sc_invert_lt n m k bits a hn hm hnk ha,
    sc_minimize_lt n a hn0 ha, sc_neg_zero n,
    barrett_residue_lt n m k c hn0 hm hc⟩

/-- Witness for `scalar_ops_preserve_reduction` at `n = 7`, `bits = 3`,
`k = 16`, `m = 2^16 / 7`. -/
theorem scalar_ops_preserve_reduction_witness :
    sc_add 7 3 5 < 7 ∧
    sc_sub 7 3 5 < 7 ∧
    sc_neg 7 3 < 7 ∧
    sc_mul 7 9362 16 3 5 < 7 ∧
    sc_sqr 7 9362 16 3 < 7 ∧
    (sc_import_reduce 7 9362 16 3 200 ).1 < 7 ∧
    (sc_invert 7 9362 16 3 3).1 < 7 ∧
    (sc_minimize 7 3).1 < 7 ∧
    sc_neg 7 0 = 0 ∧
    (100 : ℕ) - 100 * 9362 / 2 ^ 16 * 7 < 2 * 7 :=
  scalar_ops_preserve_reduction 7 9362 16 3 3 5 200 100
    (by norm_num) (by norm_num) (by norm_num) (by norm_num) (by norm_num)
    (by norm_num) (by norm_num) (by norm_num) (by norm_num) (by norm_num)

/-! #### `sc_mulshift` (C7) -/

theorem mulshift_round_aux (x t : ℕ) :
    x / 2 ^ (t + 1) + x / 2 ^ t % 2 = (x + 2 ^ t) / 2 ^ (t + 1) := by
  have hP : 0 < 2 ^ t := Nat.pos_pow_of_pos t (by norm_num)
  have h1 : x / 2 ^ (t + 1) = x / 2 ^ t / 2 := by
    rw [Nat.div_div_eq_div_mul, pow_succ]
  have h2 : (x + 2 ^ t) / 2 ^ (t + 1) = (x / 2 ^ t + 1) / 2 := by
    rw [pow_succ, ← Nat.div_div_eq_div_mul]
    congr 1
    rw [Nat.add_div_right x hP]
  rw [h1, h2]
  omega

/-- C7: `sc_mulshift(a, b, s)` computes `round((a·b) / 2^s)` — the bit at
position `s - 1` becomes a round-to-nearest increment — and the result
fits in `bits(n)` bits whenever `s > bits(n)` and both operands are
reduced. -/
theorem sc_mulshift_round (n bits s a b : ℕ) (hs : bits < s)
    (hn : n ≤ 2 ^ bits) (ha : a < n) (hb : b < n) :
    sc_mulshift a b s = (a * b + 2 ^ (s - 1)) / 2 ^ s ∧
    sc_mulshift a b s < 2 ^ bits := by
  have hs1 : s = (s - 1) + 1 := by omega
  have hround : sc_mulshift a b s = (a * b + 2 ^ (s - 1)) / 2 ^ s := by
    unfold sc_mulshift
    rw [hs1]
    have := mulshift_round_aux (a * b) (s - 1)
    simpa using this
  refine ⟨hround, ?_⟩
  rw [hround]
  have hab : a * b < 2 ^ (bits + bits) := by
    calc a * b < n * n := by
          rcases Nat.eq_zero_or_pos n with h0 | h0
          · omega
          · exact Nat.mul_lt_mul_of_lt_of_le ha (le_of_lt hb) h0
      _ ≤ 2 ^ bits * 2 ^ bits := Nat.mul_le_mul hn hn
      _ = 2 ^ (bits + bits) := by rw [pow_add]
  have hkey : a * b + 2 ^ (s - 1) < 2 ^ bits * 2 ^ s := by
    have e1 : 2 ^ (bits + bits) ≤ 2 ^ (bits + (s - 1)) :=
      Nat.pow_le_pow_right (by norm_num) (by omega)
    have e2 : 2 ^ (bits + (s - 1)) = 2 ^ bits * 2 ^ (s - 1) := pow_add 2 _ _
    have e3 : 2 ^ bits * 2 ^ (s - 1) + 2 ^ (s - 1) ≤ 2 ^ bits * 2 ^ s := by
      have : 2 ^ s = 2 ^ (s - 1) * 2 := by
        conv_lhs => rw [hs1]
        rw [pow_succ]
      rw [this]
      have hsplit : 2 ^ bits * (2 ^ (s - 1) * 2) =
          2 ^ bits * 2 ^ (s - 1) + 2 ^ bits * 2 ^ (s - 1) := by ring
      have hone : 2 ^ (s - 1) ≤ 2 ^ bits * 2 ^ (s - 1) :=
        Nat.le_mul_of_pos_left _ (Nat.pos_pow_of_pos bits (by norm_num))
      omega
    omega
  have h2s : 0 < 2 ^ s := Nat.pos_pow_of_pos s (by norm_num)
  rw [Nat.div_lt_iff_lt_mul h2s]
  calc a * b + 2 ^ (s - 1) < 2 ^ bits * 2 ^ s := hkey
    _ = 2 ^ bits * 2 ^ s := rfl

/-- Witness for `sc_mulshift_round` at `n = 7`, `bits = 3`, `s = 5`,
`a = 5`, `b = 6`. -/
theorem sc_mulshift_round_witness :
    sc_mulshift 5 6 5 = (5 * 6 + 2 ^ 4) / 2 ^ 5 ∧ sc_mulshift 5 6 5 < 2 ^ 3 :=
  sc_mulshift_round 7 3 5 5 6 (by norm_num) (by norm_num) (by norm_num)
    (by norm_num)

/-! ### Short-Weierstrass Jacobian points (`jge_*`) over `ZMod p` -/

/-- A Jacobian point `(X, Y, Z)` representing the affine
`(X/Z^2, Y/Z^3)`; `Z = 0` is the identity. -/
structure Jge (p : ℕ) where
  x : ZMod p
  y : ZMod p
  z : ZMod p
deriving DecidableEq

/-- `fe_select(r, a, b, flag)`: `r = flag ? b : a`. -/
def fe_select {p : ℕ} (a b : ZMod p) (flag : Bool) : ZMod p :=
  if flag then b else a

/-- `jge_zero`: the canonical identity `(1, 1, 0)`. -/
def jge_zero (p : ℕ) : Jge p := ⟨1, 1, 0⟩

/-- `jge_is_zero`: `Z = 0`. -/
def jge_is_zero {p : ℕ} (a : Jge p) : Bool :=
  decide (a.z = 0)

/-- `jge_neg`: negate the `Y` coordinate. -/
def jge_neg {p : ℕ} (a : Jge p) : Jge p :=
  ⟨a.x, -a.y, a.z⟩

/-- `jge_equal`: equality of Jacobian points by cross-multiplied
comparison, with the identity cases handled by masking. -/
def jge_equal {p : ℕ} (a b : Jge p) : Bool :=
  let inf1 := jge_is_zero a
  let inf2 := jge_is_zero b
  let both := inf1 && inf2
  (!(inf1 ^^ inf2)) &&
    (decide (a.x * b.z ^ 2 = b.x * a.z ^ 2) || both) &&
    (decide (a.y * (b.z ^ 2 * b.z) = b.y * (a.z ^ 2 * a.z)) || both)

/-- `jge_dblj`: doubling for general `a` (dbl-1998-cmo-2). -/
def jge_dblj {p : ℕ} (a : ZMod p) (P : Jge p) : Jge p :=
  let xx := P.x ^ 2
  let yy := P.y ^ 2
  let zz := P.z ^ 2
  let s := P.x * yy
  let s := s + s
  let s := s + s
  let m := xx + xx + xx + zz ^ 2 * a
  let t := m ^ 2 - s - s
  let z3 := P.z * P.y
  let z3 := z3 + z3
  let x3 := t
  let y3 := m * (s - t) - (yy ^ 2 + yy ^ 2 + (yy ^ 2 + yy ^ 2) +
    (yy ^ 2 + yy ^ 2 + (yy ^ 2 + yy ^ 2)))
  ⟨x3, y3, z3⟩

/-- `jge_dbl0`: doubling for `a = 0` (dbl-2009-l). -/
def jge_dbl0 {p : ℕ} (P : Jge p) : Jge p :=
  let a := P.x ^ 2
  let b := P.y ^ 2
  let c := b ^ 2
  let d := (P.x + b) ^ 2 - a - c
  let d := d + d
  let e := a + a + a
  let f := e ^ 2
  let z3 := P.z * P.y
  let z3 := z3 + z3
  let x3 := f - (d + d)
  let c8 := c + c
  let c8 := c8 + c8
  let c8 := c8 + c8
  let y3 := e * (d - x3) - c8
  ⟨x3, y3, z3⟩

/-- `jge_dbl3`: doubling for `a = -3` (dbl-2001-b). -/
def jge_dbl3 {p : ℕ} (P : Jge p) : Jge p :=
  let delta := P.z ^ 2
  let gamma := P.y ^ 2
  let beta := P.x * gamma
  let t1 := P.x - delta
  let t2 := P.x + delta
  let alpha := (t1 + t1 + t1) * t2
  let z3 := (P.y + P.z) ^ 2 - gamma - delta
  let t1' := beta + beta
  let t1' := t1' + t1'
  let x3 := alpha ^ 2 - (t1' + t1')
  let gamma2 := gamma ^ 2
  let g8 := gamma2 + gamma2
  let g8 := g8 + g8
  let g8 := g8 + g8
  let y3 := (t1' - x3) * alpha - g8
  ⟨x3, y3, z3⟩

/-- `jge_dbl`: constant-time doubling; the variant is chosen by the
context flags `zero_a` / `three_a` set at init, and the infinity cases
(`P = O`; `Y = 0` when the cofactor exceeds 1) are fixed up by selects. -/
def jge_dbl {p : ℕ} (a : ZMod p) (zero_a three_a : Bool) (hcof : ℕ)
    (P : Jge p) : Jge p :=
  let inf := jge_is_zero P || (decide (1 < hcof) && decide (P.y = 0))
  let r := if zero_a then jge_dbl0 P
           else if three_a then jge_dbl3 P
           else jge_dblj a P
  ⟨fe_select r.x 1 inf, fe_select r.y 1 inf, fe_select r.z 0 inf⟩

/-- `jge_add`: strongly-unified Jacobian addition (Brier-Joye), a single
straight-line formula with the degenerate case and the three infinity
cases handled by constant-time selects. -/
def jge_add {p : ℕ} (a : ZMod p) (zero_a : Bool) (P Q : Jge p) : Jge p :=
  let z1z1 := P.z ^ 2
  let z2z2 := Q.z ^ 2
  let u1 := P.x * z2z2
  let u2 := Q.x * z1z1
  let s1 := P.y * z2z2 * Q.z
  let s2 := Q.y * z1z1 * P.z
  let z := P.z * Q.z
  let t := u1 + u2
  let m := s1 + s2
  let r0 := t ^ 2 - u1 * u2
  let r0 := if zero_a then r0 else r0 + (z ^ 2) ^ 2 * a
  let degenerate := decide (m = 0) && decide (r0 = 0)
  let m := fe_select m (u1 - u2) degenerate
  let r0 := fe_select r0 (s1 - s2) degenerate
  let l := m ^ 2
  let g := t * l
  let ll := l ^ 2
  let ll := fe_select ll 0 degenerate
  let w := r0 ^ 2
  let f := m * z
  let h := g + g + g - w - w
  let x3 := w - g
  let x3 := x3 + x3
  let x3 := x3 + x3
  let y3 := r0 * h - ll
  let y3 := y3 + y3
  let y3 := y3 + y3
  let z3 := f + f
  let inf1 := decide (P.z = 0)
  let inf2 := decide (Q.z = 0)
  let inf3 := decide (z3 = 0) && !(inf1 || inf2)
  let x3 := fe_select x3 Q.x inf1
  let y3 := fe_select y3 Q.y inf1
  let z3 := fe_select z3 Q.z inf1
  let x3 := fe_select x3 P.x inf2
  let y3 := fe_select y3 P.y inf2
  let z3 := fe_select z3 P.z inf2
  let x3 := fe_select x3 1 inf3
  let y3 := fe_select y3 1 inf3
  let z3 := fe_select z3 0 inf3
  ⟨x3, y3, z3⟩

/-- The Jacobian curve invariant `Y^2 = X^3 + a·X·Z^4 + b·Z^6`. -/
def jge_onCurve {p : ℕ} (a b : ZMod p) (P : Jge p) : Prop :=
  P.y ^ 2 = P.x ^ 3 + a * P.x * P.z ^ 4 + b * P.z ^ 6

/-! #### Unified addition: helper lemmas -/

theorem two_ne_zero_zmod {p : ℕ} [hp : Fact (Nat.Prime p)] (hp2 : p ≠ 2) :
    (2 : ZMod p) ≠ 0 := by
  have h2 : ((2 : ℕ) : ZMod p) = (2 : ZMod p) := by norm_cast
  rw [← h2]
  rw [Ne, ZMod.natCast_zmod_eq_zero_iff_dvd]
  intro hdvd
  have := (Nat.prime_dvd_prime_iff_eq hp.out Nat.prime_two).mp hdvd
  exact hp2 this

theorem jge_add_self_eval {p : ℕ} [Fact (Nat.Prime p)] (a : ZMod p)
    (za : Bool) (hza : za = decide (a = 0)) (P : Jge p)
    (h2 : (2 : ZMod p) ≠ 0) (hz : P.z ≠ 0) (hy : P.y ≠ 0) :
    jge_add a za P P =
      ⟨4 * ((3 * P.x ^ 2 * P.z ^ 4 + a * P.z ^ 8) ^ 2 -
          8 * P.x * P.y ^ 2 * P.z ^ 8),
       4 * ((3 * P.x ^ 2 * P.z ^ 4 + a * P.z ^ 8) *
              (24 * P.x * P.y ^ 2 * P.z ^ 8 -
                2 * (3 * P.x ^ 2 * P.z ^ 4 + a * P.z ^ 8) ^ 2) -
            16 * P.y ^ 4 * P.z ^ 12),
       4 * P.y * P.z ^ 5⟩ := by
  have hmne : ¬(P.y * P.z ^ 2 * P.z + P.y * P.z ^ 2 * P.z = 0) := by
    have hm : P.y * P.z ^ 2 * P.z + P.y * P.z ^ 2 * P.z =
        2 * P.y * P.z ^ 3 := by ring
    rw [hm]
    exact mul_ne_zero (mul_ne_zero h2 hy) (pow_ne_zero 3 hz)
  have hz3ne : ¬((P.y * P.z ^ 2 * P.z + P.y * P.z ^ 2 * P.z) * (P.z * P.z) +
      (P.y * P.z ^ 2 * P.z + P.y * P.z ^ 2 * P.z) * (P.z * P.z) = 0) := by
    have e : (P.y * P.z ^ 2 * P.z + P.y * P.z ^ 2 * P.z) * (P.z * P.z) +
        (P.y * P.z ^ 2 * P.z + P.y * P.z ^ 2 * P.z) * (P.z * P.z) =
        2 * (2 * P.y * P.z ^ 3 * (P.z * P.z)) := by ring
    rw [e]
    exact mul_ne_zero h2 (mul_ne_zero (mul_ne_zero (mul_ne_zero h2 hy)
      (pow_ne_zero 3 hz)) (mul_ne_zero hz hz))
  subst hza
  by_cases ha : a = 0
  · simp only [jge_add, fe_select]
    simp [ha, hmne, hz, hz3ne, Jge.mk.injEq]
    refine ⟨by ring, by ring, by ring⟩
  · simp only [jge_add, fe_select]
    simp [ha, hmne, hz, hz3ne, Jge.mk.injEq]
    refine ⟨by ring, by ring, by ring⟩

theorem jge_dbl_eval {p : ℕ} [Fact (Nat.Prime p)] (a : ZMod p) (za ta : Bool)
    (hza : za = decide (a = 0)) (hta : ta = decide (a = -3)) (hcof : ℕ)
    (P : Jge p) (hz : P.z ≠ 0) (hy : P.y ≠ 0) :
    jge_dbl a za ta hcof P =
      ⟨(3 * P.x ^ 2 + a * P.z ^ 4) ^ 2 - 8 * P.x * P.y ^ 2,
       (3 * P.x ^ 2 + a * P.z ^ 4) *
           (4 * P.x * P.y ^ 2 - ((3 * P.x ^ 2 + a * P.z ^ 4) ^ 2 -
             8 * P.x * P.y ^ 2)) - 8 * P.y ^ 4,
       2 * P.y * P.z⟩ := by
  subst hza hta
  by_cases ha : a = 0
  · simp only [jge_dbl, jge_dbl0, jge_is_zero, fe_select]
    simp [ha, hz, hy, Jge.mk.injEq]
    refine ⟨by ring, by ring, by ring⟩
  · by_cases ha3 : a = -3
    · have h3 : ¬((3 : ZMod p) = 0) := by
        rw [ha3] at ha
        simpa using ha
      simp only [jge_dbl, jge_dbl3, jge_is_zero, fe_select]
      simp [ha, ha3, h3, hz, hy, Jge.mk.injEq]
      refine ⟨by ring, by ring, by ring⟩
    · simp only [jge_dbl, jge_dblj, jge_is_zero, fe_select]
      simp [ha, ha3, hz, hy, Jge.mk.injEq]
      refine ⟨by ring, by ring, by ring⟩

theorem jge_dbl_z_zero {p : ℕ} [Fact (Nat.Prime p)] (a : ZMod p)
    (za ta : Bool) (hcof : ℕ) (P : Jge p) (hy0 : P.y = 0) :
    (jge_dbl a za ta hcof P).z = 0 := by
  simp only [jge_dbl, jge_dbl0, jge_dbl3, jge_dblj, jge_is_zero, fe_select]
  split_ifs <;> simp [hy0]

theorem jge_add_self_z_zero {p : ℕ} [Fact (Nat.Prime p)] (a : ZMod p)
    (za : Bool) (P : Jge p) (hy0 : P.y = 0) (hz : P.z ≠ 0) :
    (jge_add a za P P).z = 0 := by
  simp only [jge_add, fe_select]
  simp [hy0, hz]

theorem jge_equal_of_both_zero {p : ℕ} [Fact (Nat.Prime p)] (A B : Jge p)
    (h1 : A.z = 0) (h2 : B.z = 0) : jge_equal A B = true := by
  simp [jge_equal, jge_is_zero, h1, h2]

theorem jge_equal_of_cross {p : ℕ} [Fact (Nat.Prime p)] (A B : Jge p)
    (h1 : A.z ≠ 0) (h2 : B.z ≠ 0)
    (hx : A.x * B.z ^ 2 = B.x * A.z ^ 2)
    (hy : A.y * (B.z ^ 2 * B.z) = B.y * (A.z ^ 2 * A.z)) :
    jge_equal A B = true := by
  simp [jge_equal, jge_is_zero, h1, h2, hx, hy]

theorem jge_add_neg_z_zero {p : ℕ} [Fact (Nat.Prime p)] (a : ZMod p)
    (za : Bool) (P : Jge p) : (jge_add a za P (jge_neg P)).z = 0 := by
  by_cases hz : P.z = 0
  · simp only [jge_add, jge_neg, fe_select]
    simp [hz]
  · simp only [jge_add, jge_neg, fe_select]
    simp [hz]

theorem jge_add_zero_left {p : ℕ} [Fact (Nat.Prime p)] (a : ZMod p)
    (za : Bool) (Q : Jge p) :
    jge_equal (jge_add a za (jge_zero p) Q) Q = true := by
  by_cases hq : Q.z = 0
  · refine jge_equal_of_both_zero _ _ ?_ hq
    simp only [jge_add, jge_zero, fe_select]
    simp [hq]
  · have : jge_add a za (jge_zero p) Q = Q := by
      simp only [jge_add, jge_zero, fe_select]
      simp [hq]
    rw [this]
    simp [jge_equal, jge_is_zero]

theorem jge_add_zero_right {p : ℕ} [Fact (Nat.Prime p)] (a : ZMod p)
    (za : Bool) (P : Jge p) :
    jge_equal (jge_add a za P (jge_zero p)) P = true := by
  by_cases hq : P.z = 0
  · refine jge_equal_of_both_zero _ _ ?_ hq
    simp only [jge_add, jge_zero, fe_select]
    simp [hq]
  · have : jge_add a za P (jge_zero p) = P := by
      simp only [jge_add, jge_zero, fe_select]
      simp [hq]
    rw [this]
    simp [jge_equal, jge_is_zero]

/-- C2: the strongly-unified Jacobian addition `jge_add` satisfies, as
curve points up to Jacobian scaling (`jge_equal`), `add(P, P) = dbl(P)`,
`add(P, -P) = O`, `add(O, P) = P` and `add(P, O) = P`, for every Jacobian
point `P` on the curve, all from the one straight-line formula whose
degenerate case is resolved by constant-time selects. -/
theorem jge_add_strongly_unified {p : ℕ} [Fact (Nat.Prime p)] (hp2 : p ≠ 2)
    (a b : ZMod p) (za ta : Bool) (hza : za = decide (a = 0))
    (hta : ta = decide (a = -3)) (hcof : ℕ) (P : Jge p)
    (hP : jge_onCurve a b P) :
    jge_equal (jge_add a za P P) (jge_dbl a za ta hcof P) = true ∧
    jge_equal (jge_add a za P (jge_neg P)) (jge_zero p) = true ∧
    jge_equal (jge_add a za (jge_zero p) P) P = true ∧
    jge_equal (jge_add a za P (jge_zero p)) P = true := by
  have h2 : (2 : ZMod p) ≠ 0 := two_ne_zero_zmod hp2
  refine ⟨?_, ?_, jge_add_zero_left a za P, jge_add_zero_right a za P⟩
  · by_cases hz : P.z = 0
    · refine jge_equal_of_both_zero _ _ ?_ ?_
      · simp only [jge_add, fe_select]
        simp [hz]
      · simp [jge_dbl, jge_is_zero, fe_select, hz]
    · by_cases hy : P.y = 0
      · exact jge_equal_of_both_zero _ _
          (jge_add_self_z_zero a za P hy hz) (jge_dbl_z_zero a za ta hcof P hy)
      · rw [jge_add_self_eval a za hza P h2 hz hy,
          jge_dbl_eval a za ta hza hta hcof P hz hy]
        have h4 : (4 : ZMod p) ≠ 0 := by
          have : (4 : ZMod p) = 2 * 2 := by norm_num
          rw [this]
          exact mul_ne_zero h2 h2
        refine jge_equal_of_cross _ _ ?_ ?_ ?_ ?_
        · exact mul_ne_zero (mul_ne_zero h4 hy) (pow_ne_zero 5 hz)
        · exact mul_ne_zero (mul_ne_zero h2 hy) hz
        · ring
        · ring
  · exact jge_equal_of_both_zero _ _ (jge_add_neg_z_zero a za P) rfl

/-- Witness for `jge_add_strongly_unified` on the curve
`y^2 = x^3 + 2x + 1` over `F_13` at the point `(0, 1, 1)`. -/
theorem jge_add_strongly_unified_witness :
    jge_equal (jge_add (2 : ZMod 13) false (⟨0, 1, 1⟩ : Jge 13) ⟨0, 1, 1⟩)
        (jge_dbl (2 : ZMod 13) false false 1 ⟨0, 1, 1⟩) = true ∧
    jge_equal (jge_add (2 : ZMod 13) false (⟨0, 1, 1⟩ : Jge 13)
        (jge_neg ⟨0, 1, 1⟩)) (jge_zero 13) = true ∧
    jge_equal (jge_add (2 : ZMod 13) false (jge_zero 13) ⟨0, 1, 1⟩)
        (⟨0, 1, 1⟩ : Jge 13) = true ∧
    jge_equal (jge_add (2 : ZMod 13) false (⟨0, 1, 1⟩ : Jge 13) (jge_zero 13))
        (⟨0, 1, 1⟩ : Jge 13) = true := by
  exact @jge_add_strongly_unified 13 ⟨by norm_num⟩ (by norm_num) 2 1 false
    false (by decide) (by decide) 1 ⟨0, 1, 1⟩
    (by unfold jge_onCurve; decide)

/-! ### The Schnorr-trick x-coordinate comparison `jge_equal_r` (C8) -/

/-- The lifting loop of `jge_equal_r`: add `n` to the exact integer
candidate `c`, bail out with `false` as soon as it reaches `p`, otherwise
add `n·Z^2` to the scaled comparand and retest.  `fuel` bounds the
recursion; the C loop is unbounded. -/
def jge_equal_r_loop (p n : ℕ) (X rn : ZMod p) :
    ℕ → ℕ → ZMod p → Option Bool
  | 0, _, _ => none
  | fuel + 1, c, rx =>
      let c' := c + n
      if p ≤ c' then some false
      else
        let rx' := rx + rn
        if X = rx' then some true
        else jge_equal_r_loop p n X rn fuel c' rx'

/-- `jge_equal_r`: compare the x-coordinate of a Jacobian point against a
scalar `x` without affinization: test `X = x·Z^2`, then lift `x` by
multiples of `n` while the exact candidate stays below `p`. -/
def jge_equal_r (p n : ℕ) (P : Jge p) (x : ℕ) : Option Bool :=
  if P.z = 0 then some false
  else
    let zz := P.z ^ 2
    let rx := (x : ZMod p) * zz
    if P.x = rx then some true
    else
      let rn := (n : ZMod p) * zz
      jge_equal_r_loop p n P.x rn (p + 1) x rx

theorem jge_equal_r_loop_isSome (p n : ℕ) (X rn : ZMod p) (hn : 0 < n) :
    ∀ fuel c rx, 0 < fuel → p ≤ c + fuel * n →
      (jge_equal_r_loop p n X rn fuel c rx).isSome = true := by
  intro fuel
  induction fuel with
  | zero => intro c rx h0 _; omega
  | succ f ih =>
      intro c rx _ hle
      rw [jge_equal_r_loop]
      by_cases hp : p ≤ c + n
      · simp [hp]
      · have hf : 0 < f := by
          rcases Nat.eq_zero_or_pos f with h0 | h0
          · subst h0; omega
          · exact h0
        by_cases heq : X = rx + rn
        · simp [hp, heq]
        · simp only [hp, heq, if_false, if_neg]
          have harith : c + (f + 1) * n = c + n + f * n := by ring
          exact ih (c + n) (rx + rn) hf (by omega)

/-- Termination of `jge_equal_r` with fuel `p`. -/
theorem jge_equal_r_isSome (p n : ℕ) (P : Jge p) (x : ℕ) (hn : 0 < n) :
    (jge_equal_r p n P x).isSome = true := by
  unfold jge_equal_r
  by_cases hz : P.z = 0
  · simp [hz]
  · simp only [hz, if_false, if_neg]
    by_cases heq : P.x = (x : ZMod p) * P.z ^ 2
    · simp [heq]
    · simp only [heq, if_false, if_neg]
      have hfuel : p + 1 ≤ (p + 1) * n := Nat.le_mul_of_pos_right _ hn
      exact jge_equal_r_loop_isSome p n P.x _ hn (p + 1) x _ (by omega)
        (by omega)

theorem mod_two_candidates (v n x : ℕ) (hn : 0 < n) (hx : x < n)
    (hv : v < 2 * n) : v % n = x ↔ (v = x ∨ v = x + n) := by
  constructor
  · intro h
    have hq := Nat.div_add_mod v n
    have hlt : v % n < n := Nat.mod_lt _ hn
    set q := v / n with hqdef
    have hqle : q ≤ 1 := by
      by_contra hq2
      push_neg at hq2
      have : 2 * n ≤ n * q := by
        calc 2 * n = n * 2 := by ring
          _ ≤ n * q := Nat.mul_le_mul_left n hq2
      omega
    interval_cases q <;> omega
  · rintro (rfl | rfl)
    · exact Nat.mod_eq_of_lt hx
    · rw [Nat.add_mod_right]
      exact Nat.mod_eq_of_lt hx

theorem jge_equal_r_correct {p n : ℕ} [Fact (Nat.Prime p)] (hn : 0 < n)
    (hnp : n ≤ p) (hpn : p < 2 * n) (P : Jge p) (x : ℕ) (hx : x < n)
    (hz : P.z ≠ 0) :
    jge_equal_r p n P x =
      some (decide ((P.x * (P.z ^ 2)⁻¹).val % n = x)) := by
  have hzz : (P.z ^ 2 : ZMod p) ≠ 0 := pow_ne_zero 2 hz
  set xa := P.x * (P.z ^ 2)⁻¹ with hxadef
  have key : ∀ c : ZMod p, (P.x = c * P.z ^ 2) ↔ xa = c := by
    intro c
    constructor
    · intro h
      rw [hxadef, h, mul_assoc, mul_inv_cancel₀ hzz, mul_one]
    · intro h
      rw [← h, hxadef, mul_assoc, inv_mul_cancel₀ hzz, mul_one]
  have hvlt : xa.val < p := ZMod.val_lt xa
  have hcast : ∀ c : ℕ, c < p → ((xa = (c : ZMod p)) ↔ xa.val = c) := by
    intro c hc
    constructor
    · intro h
      rw [h]
      exact ZMod.val_cast_of_lt hc
    · intro h
      rw [← h]
      exact (ZMod.natCast_rightInverse xa).symm
  have hmod : xa.val % n = x ↔ (xa.val = x ∨ xa.val = x + n) :=
    mod_two_candidates xa.val n x hn hx (by omega)
  unfold jge_equal_r
  rw [if_neg hz]
  by_cases hx0 : P.x = (x : ZMod p) * P.z ^ 2
  · rw [if_pos hx0]
    have : xa.val = x := by
      rw [← hcast x (by omega)]
      exact (key _).mp hx0
    have hgoal : xa.val % n = x := hmod.mpr (Or.inl this)
    simp [hgoal]
  · rw [if_neg hx0]
    have hnex : xa.val ≠ x := by
      intro hvx
      exact hx0 ((key _).mpr ((hcast x (by omega)).mpr hvx))
    rw [jge_equal_r_loop]
    by_cases hB1 : p ≤ x + n
    · rw [if_pos hB1]
      have hgoal : ¬(xa.val % n = x) := by
        rw [hmod]
        rintro (h | h) <;> omega
      simp [hgoal]
    · rw [if_neg hB1]
      have hrx' : (x : ZMod p) * P.z ^ 2 + (n : ZMod p) * P.z ^ 2 =
          ((x + n : ℕ) : ZMod p) * P.z ^ 2 := by
        push_cast
        ring
      by_cases hB2 : P.x = (x : ZMod p) * P.z ^ 2 + (n : ZMod p) * P.z ^ 2
      · rw [if_pos hB2]
        have : xa.val = x + n := by
          rw [← hcast (x + n) (by omega)]
          exact (key _).mp (by rw [hB2, hrx'])
        have hgoal : xa.val % n = x := hmod.mpr (Or.inr this)
        simp [hgoal]
      · rw [if_neg hB2]
        have hnex2 : xa.val ≠ x + n := by
          intro hvx
          apply hB2
          rw [hrx']
          exact (key (((x + n : ℕ) : ZMod p))).mpr
            ((hcast (x + n) (by omega)).mpr hvx)
        obtain ⟨q, rfl⟩ : ∃ q, p = q + 1 := ⟨p - 1, by omega⟩
        rw [jge_equal_r_loop]
        rw [if_pos (by omega)]
        have hgoal : ¬(xa.val % n = x) := by
          rw [hmod]
          rintro (h | h) <;> omega
        simp [hgoal]

/-- C8: for every Jacobian point `P ≠ O` and scalar `x ∈ [0, n)`,
`jge_equal_r` terminates (fuel `p + 1` suffices: each iteration adds `n`
to the exact candidate and the loop returns `0` once the candidate
reaches `p`), and on curves with `⌊p/n⌋ ≤ 1` (i.e. `p < 2n`) it returns
true iff some lift `x + i·n` below `p` equals the affine x-coordinate
`X/Z^2` of `P`, i.e. iff `x(P) mod n = x`. -/
theorem jge_equal_r_spec {p n : ℕ} [Fact (Nat.Prime p)] (hn : 0 < n)
    (hnp : n ≤ p) (hpn : p < 2 * n) (P : Jge p) (x : ℕ) (hx : x < n)
    (hz : P.z ≠ 0) :
    (jge_equal_r p n P x).isSome = true ∧
    (jge_equal_r p n P x = some true ↔
      (P.x * (P.z ^ 2)⁻¹).val % n = x) ∧
    (jge_equal_r p n P x = some true ↔
      ∃ i, x + i * n < p ∧ P.x = ((x + i * n : ℕ) : ZMod p) * P.z ^ 2) := by
  have hcor := jge_equal_r_correct hn hnp hpn P x hx hz
  have hiff : jge_equal_r p n P x = some true ↔
      (P.x * (P.z ^ 2)⁻¹).val % n = x := by
    rw [hcor]
    constructor
    · intro h
      have := Option.some.inj h
      simpa using this
    · intro h
      simp [h]
  refine ⟨jge_equal_r_isSome p n P x hn, hiff, ?_⟩
  rw [hiff]
  have hzz : (P.z ^ 2 : ZMod p) ≠ 0 := pow_ne_zero 2 hz
  set xa := P.x * (P.z ^ 2)⁻¹ with hxadef
  have key : ∀ c : ZMod p, (P.x = c * P.z ^ 2) ↔ xa = c := by
    intro c
    constructor
    · intro h
      rw [hxadef, h, mul_assoc, mul_inv_cancel₀ hzz, mul_one]
    · intro h
      rw [← h, hxadef, mul_assoc, inv_mul_cancel₀ hzz, mul_one]
  have hvlt : xa.val < p := ZMod.val_lt xa
  have hcast : ∀ c : ℕ, c < p → ((xa = (c : ZMod p)) ↔ xa.val = c) := by
    intro c hc
    constructor
    · intro h
      rw [h]
      exact ZMod.val_cast_of_lt hc
    · intro h
      rw [← h]
      exact (ZMod.natCast_rightInverse xa).symm
  have hmod : xa.val % n = x ↔ (xa.val = x ∨ xa.val = x + n) :=
    mod_two_candidates xa.val n x hn hx (by omega)
  constructor
  · intro h
    rcases hmod.mp h with hv | hv
    · exact ⟨0, by omega, by
        have : xa = ((x + 0 * n : ℕ) : ZMod p) := by
          rw [hcast (x + 0 * n) (by omega)]
          omega
        exact (key _).mpr this⟩
    · exact ⟨1, by omega, by
        have : xa = ((x + 1 * n : ℕ) : ZMod p) := by
          rw [hcast (x + 1 * n) (by omega)]
          omega
        exact (key _).mpr this⟩
  · rintro ⟨i, hip, hieq⟩
    have : xa.val = x + i * n := by
      rw [← hcast (x + i * n) hip]
      exact (key _).mp hieq
    rw [this, Nat.add_mul_mod_self_right]
    exact Nat.mod_eq_of_lt hx

/-- Witness for `jge_equal_r_spec` over `F_13` with `n = 7`,
`P = (0, 1, 1)`, `x = 0`. -/
theorem jge_equal_r_spec_witness :
    ((jge_equal_r 13 7 ⟨0, 1, 1⟩ 0).isSome = true ∧
      (jge_equal_r 13 7 (⟨0, 1, 1⟩ : Jge 13) 0 = some true ↔
        (((⟨0, 1, 1⟩ : Jge 13)).x * (((⟨0, 1, 1⟩ : Jge 13)).z ^ 2)⁻¹).val %
          7 = 0) ∧
      (jge_equal_r 13 7 (⟨0, 1, 1⟩ : Jge 13) 0 = some true ↔
        ∃ i, 0 + i * 7 < 13 ∧ ((⟨0, 1, 1⟩ : Jge 13)).x =
          ((0 + i * 7 : ℕ) : ZMod 13) * ((⟨0, 1, 1⟩ : Jge 13)).z ^ 2)) :=
  @jge_equal_r_spec 13 7 ⟨by norm_num⟩ (by norm_num) (by norm_num)
    (by norm_num) ⟨0, 1, 1⟩ 0 (by norm_num) (by decide)

/-! ### Montgomery x-only points (`pge_*`) and the ladder (`mont_mul`) -/

/-- A projective x-only Montgomery point `(X, Z)`; `Z = 0` is the
identity. -/
structure Pge (p : ℕ) where
  x : ZMod p
  z : ZMod p
deriving DecidableEq

/-- `pge_zero`: the identity `(1, 0)`. -/
def pge_zero (p : ℕ) : Pge p := ⟨1, 0⟩

/-- `pge_swap`: conditional swap of two points. -/
def pge_swap {p : ℕ} (a b : Pge p) (flag : Bool) : Pge p × Pge p :=
  if flag then (b, a) else (a, b)

/-- `pge_dbl`: 2M + 2S Montgomery doubling with `a24 = (A + 2)/4`. -/
def pge_dbl {p : ℕ} (a24 : ZMod p) (P : Pge p) : Pge p :=
  let a := P.x + P.z
  let aa := a ^ 2
  let b := P.x - P.z
  let bb := b ^ 2
  let c := aa - bb
  ⟨aa * bb, (c * a24 + bb) * c⟩

/-- `pge_ladder`: joint add+double ladder step (ladd-1987-m-3); `p1` is
the fixed difference point, `p4 = 2·p2` and `p5` the differential sum. -/
def pge_ladder {p : ℕ} (a24 : ZMod p) (p1 p2 p3 : Pge p) : Pge p × Pge p :=
  let a := p2.x + p2.z
  let aa := a ^ 2
  let b := p2.x - p2.z
  let bb := b ^ 2
  let e := aa - bb
  let c := p3.x + p3.z
  let d := p3.x - p3.z
  let da := d * a
  let cb := c * b
  let x5 := (da + cb) ^ 2 * p1.z
  let z5 := (da - cb) ^ 2 * p1.x
  let x4 := aa * bb
  let z4 := (e * a24 + bb) * e
  (⟨x4, z4⟩, ⟨x5, z5⟩)

/-- The loop of `mont_mul`: scan bits `i - 1, …, 0` of the scalar,
conditionally swapping on `swap XOR bit` before each joint ladder step
and remembering the bit as the next `swap`. -/
def mont_mul_loop {p : ℕ} (a24 : ZMod p) (P : Pge p) (k : ℕ) :
    ℕ → Bool → Pge p × Pge p → (Pge p × Pge p) × Bool
  | 0, swap, st => (st, swap)
  | i + 1, swap, st =>
      let bit := k.testBit i
      let st' := pge_swap st.1 st.2 (swap ^^ bit)
      let st'' := pge_ladder a24 P st'.1 st'.2
      mont_mul_loop a24 P k i bit st''

/-- `mont_mul`: the Montgomery ladder, iterating for exactly `febits`
(the *field* bit-width) iterations from `(O, P)` and closing with one
final conditional swap.  No clamping is performed here. -/
def mont_mul {p : ℕ} (a24 : ZMod p) (febits : ℕ) (P : Pge p) (k : ℕ) :
    Pge p :=
  let st := mont_mul_loop a24 P k febits false (pge_zero p, P)
  (pge_swap st.1.1 st.1.2 st.2).1

theorem mont_mul_loop_congr {p : ℕ} (a24 : ZMod p) (P : Pge p)
    (k1 k2 : ℕ) : ∀ i swap st, (∀ j, j < i → k1.testBit j = k2.testBit j) →
    mont_mul_loop a24 P k1 i swap st = mont_mul_loop a24 P k2 i swap st := by
  intro i
  induction i with
  | zero => intro swap st _; rfl
  | succ j ih =>
      intro swap st hbits
      rw [mont_mul_loop, mont_mul_loop, hbits j (by omega)]
      exact ih _ _ (fun j' hj' => hbits j' (by omega))

/-- C6: `mont_mul` runs the ladder for exactly `bits(p)` iterations over
the scalar's low bits, so its result depends only on `k mod 2^bits(p)`:
adding any multiple of `2^bits(p)` to the (unclamped) scalar leaves the
output unchanged. -/
theorem mont_mul_low_bits {p : ℕ} (a24 : ZMod p) (febits : ℕ) (P : Pge p)
    (k t : ℕ) :
    mont_mul a24 febits P k = mont_mul a24 febits P (k % 2 ^ febits) ∧
    mont_mul a24 febits P (k + 2 ^ febits * t) = mont_mul a24 febits P k := by
  have base : ∀ k' : ℕ, mont_mul a24 febits P k' =
      mont_mul a24 febits P (k' % 2 ^ febits) := by
    intro k'
    unfold mont_mul
    rw [mont_mul_loop_congr a24 P k' (k' % 2 ^ febits) febits false _ ?_]
    intro j hj
    rw [Nat.testBit_mod_two_pow]
    simp [hj]
  refine ⟨base k, ?_⟩
  rw [base (k + 2 ^ febits * t), base k,
    show (k + 2 ^ febits * t) % 2 ^ febits = k % 2 ^ febits from
      Nat.add_mul_mod_self_left k (2 ^ febits) t]

/-! ### X25519/X448-style key agreement (`ecdh_*`, C10) -/

/-- `fe_import_uniform`: mask the top byte down to the field bit-width
(no-op when `bits(p)` is byte-aligned), then import modulo `p`.  The
comparison result of the import is discarded by `pge_import`. -/
def fe_import_uniform (p bits size : ℕ) (raw : ℕ) : ZMod p :=
  if bits % 8 = 0 then ((raw % 2 ^ (8 * size) : ℕ) : ZMod p)
  else ((raw % 2 ^ bits : ℕ) : ZMod p)

/-- `pge_import`: decode the u-coordinate with top-byte masking and set
`Z = 1`.  There is no failure path. -/
def pge_import (p bits size : ℕ) (raw : ℕ) : Pge p :=
  ⟨fe_import_uniform p bits size raw, 1⟩

/-- `pge_export`: affinize; fails exactly when `Z = 0`
(`fe_invert` reports a zero input). -/
def pge_export {p : ℕ} (P : Pge p) : ℕ × Bool :=
  ((P.z⁻¹ * P.x).val, decide (¬P.z = 0))

/-- `ecdh_derive`: clamp the private key, import it as a scalar (the
range check result is ignored), import the peer point, run the ladder,
and export; the only failure signal comes from the export. -/
def ecdh_derive (p bits size : ℕ) (a24 : ZMod p) (febits : ℕ)
    (clampFn : ℕ → ℕ) (pub priv : ℕ) : ℕ × Bool :=
  let clamped := clampFn priv
  let a := (sc_import (2 ^ (8 * size)) clamped).1
  let A := pge_import p bits size pub
  let P := mont_mul a24 febits A a
  pge_export P

/-- C10: `ecdh_derive` never rejects the peer public key: `pge_import`
is total (top byte masked, u reduced mod `p`, `Z = 1`), and the call
fails exactly when the ladder output has `Z = 0`, i.e. the derived point
is the identity. -/
theorem ecdh_derive_fails_iff_identity (p bits size : ℕ) (a24 : ZMod p)
    (febits : ℕ) (clampFn : ℕ → ℕ) (pub priv : ℕ) :
    (pge_import p bits size pub =
      ⟨((pub % 2 ^ (if bits % 8 = 0 then 8 * size else bits) : ℕ) : ZMod p),
        1⟩) ∧
    ((ecdh_derive p bits size a24 febits clampFn pub priv).2 = false ↔
      (mont_mul a24 febits (pge_import p bits size pub)
        (clampFn priv)).z = 0) := by
  constructor
  · unfold pge_import fe_import_uniform
    split <;> simp
  · unfold ecdh_derive pge_export sc_import
    simp

/-! ### Twisted-Edwards decoding (`xge_set_y`, `xge_import`, C9) -/

/-- An extended Edwards point `(X, Y, Z, T)`. -/
structure Xge (p : ℕ) where
  x : ZMod p
  y : ZMod p
  z : ZMod p
  t : ZMod p
deriving DecidableEq

/-- `fe_is_odd`: parity of the canonical representative. -/
def fe_is_odd {p : ℕ} (a : ZMod p) : Bool :=
  decide (a.val % 2 = 1)

/-- `fe_neg_cond`: conditional negation. -/
def fe_neg_cond {p : ℕ} (a : ZMod p) (flag : Bool) : ZMod p :=
  if flag then -a else a

/-- `fe_set_odd`: force the parity of a field element to `odd`. -/
def fe_set_odd {p : ℕ} (a : ZMod p) (odd : Bool) : ZMod p :=
  fe_neg_cond a (fe_is_odd a ^^ odd)

/-- `fe_invert`: field inversion; reports whether the input was
nonzero. -/
def fe_invert {p : ℕ} (a : ZMod p) : ZMod p × Bool :=
  (a⁻¹, decide (¬a = 0))

/-- The `p ≡ 3 (mod 4)` branch of `fe_sqrt`: `b = a^((p+1)/4)`, success
iff `b^2 = a`. -/
def fe_sqrt (p : ℕ) (a : ZMod p) : ZMod p × Bool :=
  let b := a ^ ((p + 1) / 4)
  (b, decide (b ^ 2 = a))

/-- `fe_isqrt` (generic chain): `r = sqrt(u / v)`, failing when `v = 0`
or `u/v` is not square. -/
def fe_isqrt (p : ℕ) (u v : ZMod p) : ZMod p × Bool :=
  let zr := fe_invert v
  let z := zr.1 * u
  let sq := fe_sqrt p z
  (sq.1, zr.2 && sq.2)

/-- `xge_set_xy`: affine to extended coordinates. -/
def xge_set_xy {p : ℕ} (x y : ZMod p) : Xge p :=
  ⟨x, y, 1, x * y⟩

/-- `xge_set_y`: recover `x` from `y` via
`x^2 = (y^2 - 1) / (d·y^2 - a)`, force the sign, and reject a zero `x`
whose requested sign bit is set. -/
def xge_set_y (p : ℕ) (d a : ZMod p) (y : ZMod p) (sign : Option Bool) :
    Xge p × Bool :=
  let y2 := y ^ 2
  let lhs := y2 - 1
  let rhs := d * y2 - a
  let xr := fe_isqrt p lhs rhs
  let x := match sign with
    | none => xr.1
    | some s => fe_set_odd xr.1 s
  let P := xge_set_xy x y
  let ret := match sign with
    | none => xr.2
    | some s => xr.2 && !(decide (x = 0) && s)
  (P, ret)

/-- `xge_import`: split the little-endian encoding into the masked `y`
value and the top sign bit (with the extra-byte quirk when `bits(p)` is
byte-aligned), then run `xge_set_y`. -/
def xge_import (p bits size : ℕ) (d a : ZMod p) (raw : ℕ) : Xge p × Bool :=
  if bits % 8 = 0 then
    if ¬((raw / 2 ^ (8 * size)) % 2 ^ 7 = 0) then (⟨0, 0, 1, 0⟩, false)
    else if raw % 2 ^ (8 * size) < p then
      xge_set_y p d a ((raw % 2 ^ (8 * size) : ℕ) : ZMod p)
        (some (decide (raw / 2 ^ (8 * size + 7) = 1)))
    else (⟨0, 0, 1, 0⟩, false)
  else
    if raw % 2 ^ (8 * size - 1) < p then
      xge_set_y p d a ((raw % 2 ^ (8 * size - 1) : ℕ) : ZMod p)
        (some (decide (raw / 2 ^ (8 * size - 1) % 2 = 1)))
    else (⟨0, 0, 1, 0⟩, false)

theorem fe_is_odd_neg {p : ℕ} [Fact (Nat.Prime p)] (hodd : p % 2 = 1)
    (x : ZMod p) (hx : x ≠ 0) : fe_is_odd (-x) = !fe_is_odd x := by
  have hvpos : 0 < x.val := by
    have := (ZMod.val_ne_zero x).mpr hx
    omega
  have hvlt : x.val < p := ZMod.val_lt x
  have hneg : (-x).val = p - x.val := by
    rw [ZMod.neg_val, if_neg hx]
  unfold fe_is_odd
  rw [hneg]
  rcases Nat.even_or_odd x.val with he | ho
  · have h1 : x.val % 2 = 0 := Nat.even_iff.mp he
    have h2 : (p - x.val) % 2 = 1 := by omega
    simp [h1, h2]
  · have h1 : x.val % 2 = 1 := Nat.odd_iff.mp ho
    have h2 : (p - x.val) % 2 = 0 := by omega
    simp [h1, h2]

theorem fe_set_odd_parity {p : ℕ} [Fact (Nat.Prime p)] (hodd : p % 2 = 1)
    (x : ZMod p) (s : Bool) (hx : x ≠ 0) :
    fe_is_odd (fe_set_odd x s) = s := by
  unfold fe_set_odd fe_neg_cond
  by_cases hpar : fe_is_odd x = s
  · simp [hpar]
  · have : (fe_is_odd x ^^ s) = true := by
      cases hs : fe_is_odd x <;> cases s <;> simp_all
    rw [this]
    simp only [if_true]
    rw [fe_is_odd_neg hodd x hx]
    cases hs : fe_is_odd x <;> cases s <;> simp_all

/-- C9: decoding a twisted-Edwards point recovers `x` from the decoded
`y` via the inverse square root of `(y^2 - 1)/(d·y^2 - a)` and matches
the requested sign bit; when the recovered `x` is zero the import
succeeds only for sign bit 0 — a zero-`x` encoding claiming sign 1 is
rejected.  `xge_import` feeds the masked `y` and the top sign bit into
`xge_set_y`. -/
theorem xge_decode_sign_of_zero_x {p : ℕ} [Fact (Nat.Prime p)]
    (hp34 : p % 4 = 3) (d a : ZMod p) (y : ZMod p) (s : Bool) :
    (((xge_set_y p d a y (some s)).1.x = 0 ∧ s = true) →
      (xge_set_y p d a y (some s)).2 = false) ∧
    ((xge_set_y p d a y (some s)).2 = true →
      ((xge_set_y p d a y (some s)).1.x ^ 2 * (d * y ^ 2 - a) = y ^ 2 - 1 ∧
        fe_is_odd (xge_set_y p d a y (some s)).1.x = s)) ∧
    (∀ bits size raw, bits % 8 ≠ 0 → raw % 2 ^ (8 * size - 1) < p →
      xge_import p bits size d a raw =
        xge_set_y p d a ((raw % 2 ^ (8 * size - 1) : ℕ) : ZMod p)
          (some (decide (raw / 2 ^ (8 * size - 1) % 2 = 1)))) := by
  have hodd : p % 2 = 1 := by omega
  refine ⟨?_, ?_, ?_⟩
  · rintro ⟨hx0, rfl⟩
    simp only [xge_set_y, xge_set_xy] at hx0 ⊢
    simp [hx0]
  · intro h
    simp only [xge_set_y, xge_set_xy, fe_isqrt, fe_invert, fe_sqrt,
      Bool.and_eq_true, Bool.not_eq_true', Bool.and_eq_false_imp,
      decide_eq_true_eq] at h
    obtain ⟨⟨hvne, hsq⟩, hzs⟩ := h
    set b := ((d * y ^ 2 - a)⁻¹ * (y ^ 2 - 1)) ^ ((p + 1) / 4) with hbdef
    have hxsq : (fe_set_odd b s) ^ 2 = (d * y ^ 2 - a)⁻¹ * (y ^ 2 - 1) := by
      unfold fe_set_odd fe_neg_cond
      split
      · rw [neg_pow]
        simp [hsq]
      · exact hsq
    constructor
    · simp only [xge_set_y, xge_set_xy, fe_isqrt, fe_invert, fe_sqrt,
        ← hbdef]
      rw [hxsq]
      rw [mul_comm ((d * y ^ 2 - a)⁻¹) _, mul_assoc,
        inv_mul_cancel₀ hvne, mul_one]
    · simp only [xge_set_y, xge_set_xy, fe_isqrt, fe_invert, fe_sqrt,
        ← hbdef]
      by_cases hb0 : fe_set_odd b s = 0
      · have hs0 : s = false := by
          by_contra hs1
          have : s = true := by
            cases s
            · exact absurd rfl hs1
            · rfl
          exact absurd this (by simpa [hb0] using hzs)
        have : fe_is_odd (fe_set_odd b s) = false := by
          rw [hb0]
          unfold fe_is_odd
          simp [ZMod.val_zero]
        rw [this, hs0]
      · have hbne : b ≠ 0 := by
          intro hb
          apply hb0
          unfold fe_set_odd fe_neg_cond
          rw [hb]
          split <;> simp
        exact fe_set_odd_parity hodd b s hbne
  · intro bits size raw h8 hlt
    unfold xge_import
    rw [if_neg h8, if_pos hlt]

/-- Witness for `xge_decode_sign_of_zero_x` over `F_7` with `d = 2`,
`a = 1`, `y = 3`, sign bit 1, and the 1-byte encoding `133`. -/
theorem xge_decode_sign_of_zero_x_witness :
    (((xge_set_y 7 2 1 3 (some true)).1.x = 0 ∧ true = true) →
      (xge_set_y 7 2 1 3 (some true)).2 = false) ∧
    ((xge_set_y 7 2 1 3 (some true)).2 = true →
      ((xge_set_y 7 2 1 3 (some true)).1.x ^ 2 * (2 * 3 ^ 2 - 1) =
          3 ^ 2 - 1 ∧
        fe_is_odd (xge_set_y 7 2 1 3 (some true)).1.x = true)) ∧
    xge_import 7 3 1 2 1 133 =
      xge_set_y 7 2 1 ((133 % 2 ^ (8 * 1 - 1) : ℕ) : ZMod 7)
        (some (decide (133 / 2 ^ (8 * 1 - 1) % 2 = 1))) := by
  have h := @xge_decode_sign_of_zero_x 7 ⟨by norm_num⟩ (by norm_num) 2 1 3 true
  exact ⟨h.1, h.2.1, h.2.2 3 1 133 (by norm_num) (by norm_num)⟩

/-! ### ECDSA protocol layer

The protocol functions below are translated from `ecdsa_sign`,
`ecdsa_verify`, `ecdsa_recover` and `ecdsa_pubkey_create`.  The
scalar-multiplication layer (`wei_mul_g`, `wei_jmul_double_var`,
`wei_mul_double_var`) and the per-curve square root are the context's
operations, exactly as the C code reaches them through the `wei_t`
context; they are carried as fields of `WeiCtx` and their group-law
contracts appear as explicit hypotheses of the theorems.  The
deterministic bit generator is out of scope (an external collaborator),
so `ecdsa_sign` consumes a stream of drawn nonce bytes and a fuel bound
for its retry loop.  `ecdsa_verify` uses the `ECC_WITH_TRICK` branch
(`jge_equal_r`), the configuration the specification describes. -/

/-- A short-Weierstrass affine point with an identity flag. -/
structure Wge (p : ℕ) where
  x : ZMod p
  y : ZMod p
  inf : Bool
deriving DecidableEq

/-- The curve context consumed by the ECDSA entry points. -/
structure WeiCtx (p : ℕ) where
  n : ℕ
  m : ℕ
  kbits : ℕ
  bits : ℕ
  size : ℕ
  wa : ZMod p
  wb : ZMod p
  mulG : ℕ → Wge p
  jmulDouble : ℕ → Wge p → ℕ → Jge p
  mulDouble : ℕ → Wge p → ℕ → Wge p
  sqrtFn : ZMod p → ZMod p × Bool

/-- `sc_invert_var`: variable-time modular inversion (extended GCD). -/
def sc_invert_var (n s : ℕ) : ℕ × Bool :=
  (((s : ZMod n)⁻¹).val, decide (¬(s : ZMod n) = 0))

/-- `wge_export` (compact form): fails on the identity, otherwise emits
the parity of `y` and the bytes of `x`. -/
def wge_export {p : ℕ} (W : Wge p) : Option (Bool × ℕ) :=
  if W.inf then none else some (fe_is_odd W.y, W.x.val)

/-- `wge_set_x`: lift an x-coordinate, choosing the root whose parity
matches `sign` (or either root when no sign is requested). -/
def wge_set_x {p : ℕ} (wa wb : ZMod p) (sqrtFn : ZMod p → ZMod p × Bool)
    (x : ZMod p) (sign : Option Bool) : Wge p × Bool :=
  let y2 := x ^ 2 * x + wa * x + wb
  let yr := sqrtFn y2
  let y := match sign with
    | none => yr.1
    | some s => fe_set_odd yr.1 s
  (⟨x, y, false⟩, yr.2)

/-- `ecdsa_reduce`: truncate the message to `size(n)` bytes, shift right
down to `bits(n)` bits, and weakly reduce.  `len` is the byte length and
`M` the big-endian value of the message. -/
def ecdsa_reduce {p : ℕ} (ec : WeiCtx p) (len M : ℕ) : ℕ × Bool :=
  let len' := min len ec.size
  let v := M / 256 ^ (len - len')
  let v' := if ec.bits < len' * 8 then v / 2 ^ (len' * 8 - ec.bits) else v
  sc_import_weak ec.n v'

/-- `ecdsa_pubkey_create`: import and reject zero, multiply the base
point, export compact. -/
def ecdsa_pubkey_create {p : ℕ} (ec : WeiCtx p) (priv : ℕ) :
    Option (Bool × ℕ) :=
  let ar := sc_import ec.n priv
  if ¬ar.2 then none
  else if ar.1 = 0 then none
  else wge_export (ec.mulG ar.1)

/-- One iteration of the `ecdsa_sign` retry loop, fed with the freshly
drawn nonce bytes: reduce the nonce, reject zero, compute `R = k·G`,
derive `r = x(R) mod n` with the wrap flag, reject `r = 0`, compute
`s = k⁻¹(r·a + m)` and low-S-normalize, flipping the recovery sign. -/
def ecdsa_sign_try {p : ℕ} (ec : WeiCtx p) (a m bytes : ℕ) :
    Option (ℕ × ℕ × ℕ) :=
  let kr := ecdsa_reduce ec ec.size bytes
  if ¬kr.2 then none
  else if kr.1 = 0 then none
  else
    let R := ec.mulG kr.1
    if R.inf then none
    else
      let sign := fe_is_odd R.y
      let rr := sc_import_reduce ec.n ec.m ec.kbits ec.bits R.x.val
      let high := !rr.2
      if rr.1 = 0 then none
      else
        let kinv := (sc_invert ec.n ec.m ec.kbits ec.bits kr.1).1
        let s0 := sc_mul ec.n ec.m ec.kbits rr.1 a
        let s1 := sc_add ec.n s0 m
        let s2 := sc_mul ec.n ec.m ec.kbits s1 kinv
        let sm := sc_minimize ec.n s2
        let sign' := sign ^^ sm.2
        some (rr.1, sm.1,
          2 * (if high then 1 else 0) + (if sign' then 1 else 0))

/-- The `ecdsa_sign` retry loop over the nonce stream. -/
def ecdsa_sign_loop {p : ℕ} (ec : WeiCtx p) (a m : ℕ) (nonces : ℕ → ℕ) :
    ℕ → ℕ → Option (ℕ × ℕ × ℕ)
  | 0, _ => none
  | fuel + 1, i =>
      match ecdsa_sign_try ec a m (nonces i) with
      | some out => some out
      | none => ecdsa_sign_loop ec a m nonces fuel (i + 1)

/-- `ecdsa_sign`: import the private key, reduce the message, and loop
drawing nonces until a valid `(r, s)` pair emerges. -/
def ecdsa_sign {p : ℕ} (ec : WeiCtx p) (fuel : ℕ) (nonces : ℕ → ℕ)
    (priv len M : ℕ) : Option (ℕ × ℕ × ℕ) :=
  let ar := sc_import ec.n priv
  if ¬ar.2 then none
  else if ar.1 = 0 then none
  else
    let m := (ecdsa_reduce ec len M).1
    ecdsa_sign_loop ec ar.1 m nonces fuel 0

/-- `ecdsa_verify`: reduce the message, range-check and zero-check the
signature scalars, enforce low-S, form `u1 = m/s`, `u2 = r/s`,
`R = u1·G + u2·A` in Jacobian coordinates, and compare `x(R)` with `r`
through `jge_equal_r` without affinizing. -/
def ecdsa_verify {p : ℕ} (ec : WeiCtx p) (len M sigr sigs : ℕ)
    (A : Wge p) : Bool :=
  let m := (ecdsa_reduce ec len M).1
  let rr := sc_import ec.n sigr
  if ¬rr.2 then false
  else
    let sr := sc_import ec.n sigs
    if ¬sr.2 then false
    else if rr.1 = 0 ∨ sr.1 = 0 then false
    else if sc_is_high ec.n sr.1 then false
    else
      let sinv := (sc_invert_var ec.n sr.1).1
      let u1 := sc_mul ec.n ec.m ec.kbits m sinv
      let u2 := sc_mul ec.n ec.m ec.kbits rr.1 sinv
      let Rj := ec.jmulDouble u1 A u2
      (jge_equal_r p ec.n Rj rr.1).getD false

/-- `ecdsa_recover`: decode `(r, s)` with the same checks as verify,
lift `x = r + high·n` (requiring `r < p mod n` when the high bit is
set), reconstruct `R` from the sign bit, and compute
`A = (s/r)·R - (m/r)·G`. -/
def ecdsa_recover {p : ℕ} (ec : WeiCtx p) (len M sigr sigs param : ℕ) :
    Option (Bool × ℕ) :=
  let sign := param % 2 = 1
  let high := param / 2
  let m := (ecdsa_reduce ec len M).1
  let rr := sc_import ec.n sigr
  if ¬rr.2 then none
  else
    let sr := sc_import ec.n sigs
    if ¬sr.2 then none
    else if rr.1 = 0 ∨ sr.1 = 0 then none
    else if sc_is_high ec.n sr.1 then none
    else
      let x : ZMod p := (rr.1 : ZMod p)
      let ok := if high ≠ 0 then decide (rr.1 < p % ec.n) else true
      if ¬ok then none
      else
        let x := if high ≠ 0 then x + (ec.n : ZMod p) else x
        let Rr := wge_set_x ec.wa ec.wb ec.sqrtFn x (some sign)
        if ¬Rr.2 then none
        else
          let rinv := (sc_invert_var ec.n rr.1).1
          let s1 := sc_mul ec.n ec.m ec.kbits m rinv
          let s2 := sc_mul ec.n ec.m ec.kbits sr.1 rinv
          let s1 := sc_neg ec.n s1
          let A := ec.mulDouble s1 Rr.1 s2
          wge_export A

/-! #### Value semantics of the scalar operations -/

theorem sc_add_eq_mod (n a b : ℕ) (ha : a < n) (hb : b < n) :
    sc_add n a b = (a + b) % n := by
  unfold sc_add
  by_cases h : n ≤ a + b
  · rw [if_pos h]
    have : (a + b) % n = (a + b - n) % n := by
      conv_lhs => rw [show a + b = a + b - n + n by omega]
      rw [Nat.add_mod_right]
    rw [this, Nat.mod_eq_of_lt (by omega)]
  · rw [if_neg h, Nat.mod_eq_of_lt (by omega)]

theorem sc_mul_eq_mod (n m k a b : ℕ) (hn : 0 < n) (hm : m = 2 ^ k / n)
    (hnk : n * n ≤ 2 ^ k) (ha : a < n) (hb : b < n) :
    sc_mul n m k a b = a * b % n := by
  unfold sc_mul
  exact sc_reduce_eq_mod n m k _ hn hm
    (lt_of_lt_of_le (Nat.mul_lt_mul_of_lt_of_le ha (le_of_lt hb) hn) hnk)

theorem sc_import_reduce_eq_mod (n m k bits v : ℕ) (hn : 0 < n)
    (hm : m = 2 ^ k / n) (hv2 : v < 2 * n) (hvk : v < 2 ^ k) :
    (sc_import_reduce n m k bits v).1 = v % n := by
  unfold sc_import_reduce sc_import_weak sc_import_strong
  split
  · simp only
    by_cases h : v < n
    · rw [if_pos h, Nat.mod_eq_of_lt h]
    · rw [if_neg h]
      have : v % n = (v - n) % n := by
        conv_lhs => rw [show v = v - n + n by omega]
        rw [Nat.add_mod_right]
      rw [this, Nat.mod_eq_of_lt (by omega)]
  · simp only
    exact sc_reduce_eq_mod n m k v hn hm hvk

theorem ecdsa_reduce_spec {p : ℕ} (ec : WeiCtx p) (len M : ℕ)
    (hn : 0 < ec.n) (hbl : 2 ^ (ec.bits - 1) ≤ ec.n) (hb0 : 0 < ec.bits)
    (hsz : ec.size = (ec.bits + 7) / 8) (hM : M < 256 ^ len) :
    (ecdsa_reduce ec len M).1 < ec.n := by
  unfold ecdsa_reduce sc_import_weak
  simp only
  set len' := min len ec.size with hlen'
  set v := M / 256 ^ (len - len') with hv
  have hvlt : v < 256 ^ len' := by
    rw [hv]
    rcases Nat.eq_zero_or_pos (len - len') with h0 | h0
    · rw [h0]
      simp only [pow_zero, Nat.div_one]
      exact lt_of_lt_of_le hM (Nat.pow_le_pow_right (by norm_num) (by omega))
    · rw [Nat.div_lt_iff_lt_mul (Nat.pos_pow_of_pos _ (by norm_num))]
      calc M < 256 ^ len := hM
        _ = 256 ^ (len' + (len - len')) := by congr 1; omega
        _ = 256 ^ len' * 256 ^ (len - len') := pow_add 256 _ _
  have h256 : (256 : ℕ) ^ len' = 2 ^ (8 * len') := by
    rw [show (256 : ℕ) = 2 ^ 8 by norm_num, ← pow_mul]
  set v' := if ec.bits < len' * 8 then v / 2 ^ (len' * 8 - ec.bits) else v
    with hv'
  have hv'lt : v' < 2 ^ ec.bits := by
    rw [hv']
    split
    · rename_i hlt
      rw [Nat.div_lt_iff_lt_mul (Nat.pos_pow_of_pos _ (by norm_num))]
      calc v < 2 ^ (8 * len') := by rw [← h256]; exact hvlt
        _ = 2 ^ ec.bits * 2 ^ (len' * 8 - ec.bits) := by
            rw [← pow_add]; congr 1; omega
    · rename_i hge
      calc v < 2 ^ (8 * len') := by rw [← h256]; exact hvlt
        _ ≤ 2 ^ ec.bits := Nat.pow_le_pow_right (by norm_num) (by omega)
  have h2n : 2 ^ ec.bits ≤ 2 * ec.n := by
    calc 2 ^ ec.bits = 2 * 2 ^ (ec.bits - 1) := by
          rw [← pow_succ']; congr 1; omega
      _ ≤ 2 * ec.n := by omega
  split <;> omega

theorem sc_minimize_le_half (n a : ℕ) (ha : a < n) :
    (sc_minimize n a).1 ≤ n / 2 := by
  unfold sc_minimize sc_neg_cond sc_is_high sc_neg
  simp only
  by_cases h : n / 2 < a
  · simp only [h, decide_True, if_true]
    split <;> omega
  · simp [h]
    omega

theorem sc_minimize_val (n a : ℕ) (ha : a < n) (ha0 : a ≠ 0) :
    (sc_minimize n a) = (if n / 2 < a then n - a else a,
      decide (n / 2 < a)) := by
  unfold sc_minimize sc_neg_cond sc_is_high sc_neg
  by_cases h : n / 2 < a <;> simp [h, ha0]

theorem zmod_pow_sub_two_eq_inv {q : ℕ} [hq : Fact (Nat.Prime q)]
    (a : ZMod q) (ha : a ≠ 0) : a ^ (q - 2) = a⁻¹ := by
  have h2 : 2 ≤ q := hq.out.two_le
  have h1 : a * a ^ (q - 2) = 1 := by
    rw [← pow_succ', show q - 2 + 1 = q - 1 by omega]
    exact ZMod.pow_card_sub_one_eq_one ha
  exact eq_inv_of_mul_eq_one_left (by rw [mul_comm]; exact h1)

theorem sc_pow_loop_spec (n m k e a : ℕ) (hn : 1 < n) (hm : m = 2 ^ k / n)
    (hnk : n * n ≤ 2 ^ k) (ha : a < n) :
    ∀ i b, b < n →
      ((sc_pow_loop n m k a e i b : ℕ) : ZMod n) =
        (b : ZMod n) ^ 2 ^ i * (a : ZMod n) ^ (e % 2 ^ i) := by
  intro i
  induction i with
  | zero =>
      intro b hb
      simp [sc_pow_loop, Nat.mod_one]
  | succ j ih =>
      intro b hb
      have hn0 : 0 < n := by omega
      have hb2 : sc_sqr n m k b < n := sc_sqr_lt n m k b hn0 hm hnk hb
      have hsqr_cast : ((sc_sqr n m k b : ℕ) : ZMod n) = (b : ZMod n) ^ 2 := by
        unfold sc_sqr
        rw [sc_reduce_eq_mod n m k _ hn0 hm (lt_of_lt_of_le
          (Nat.mul_lt_mul_of_lt_of_le hb (le_of_lt hb) hn0) hnk)]
        rw [ZMod.natCast_mod]
        push_cast
        ring
      have hexp : e % 2 ^ (j + 1) = e % 2 ^ j + 2 ^ j * (e / 2 ^ j % 2) :=
        Nat.mod_pow_succ
      rw [sc_pow_loop]
      by_cases hbit : e.testBit j = true
      · have hdiv : e / 2 ^ j % 2 = 1 := by
          have h := hbit
          rw [Nat.testBit_to_div_mod] at h
          simpa using h
        rw [if_pos hbit]
        rw [ih _ (sc_mul_lt n m k _ a hn0 hm hnk hb2 ha)]
        have hmul_cast : ((sc_mul n m k (sc_sqr n m k b) a : ℕ) : ZMod n) =
            (b : ZMod n) ^ 2 * (a : ZMod n) := by
          rw [sc_mul_eq_mod n m k _ a hn0 hm hnk hb2 ha, ZMod.natCast_mod]
          push_cast
          rw [hsqr_cast]
        rw [hmul_cast, hexp, hdiv]
        rw [mul_pow, ← pow_mul]
        rw [pow_add, pow_add, pow_mul]
        ring
      · have hdiv : e / 2 ^ j % 2 = 0 := by
          have h := hbit
          rw [Nat.testBit_to_div_mod] at h
          simp at h
          omega
        rw [if_neg hbit]
        rw [ih _ hb2, hsqr_cast, hexp, hdiv]
        rw [← pow_mul]
        ring

theorem sc_invert_cast {n : ℕ} [Fact (Nat.Prime n)] (m k bits kv : ℕ)
    (hm : m = 2 ^ k / n) (hnk : n * n ≤ 2 ^ k) (hbu : n < 2 ^ bits)
    (hkv : kv < n) (hk0 : kv ≠ 0) :
    (((sc_invert n m k bits kv).1 : ℕ) : ZMod n) = (kv : ZMod n)⁻¹ := by
  have hn1 : 1 < n := (Fact.out : Nat.Prime n).one_lt
  unfold sc_invert sc_pow
  simp only
  rw [sc_pow_loop_spec n m k (n - 2) kv hn1 hm hnk hkv bits 1 hn1]
  rw [show ((1 : ℕ) : ZMod n) = 1 by norm_cast, one_pow, one_mul]
  rw [Nat.mod_eq_of_lt (by omega)]
  apply zmod_pow_sub_two_eq_inv
  intro hc
  rw [ZMod.natCast_zmod_eq_zero_iff_dvd] at hc
  have := Nat.le_of_dvd (by omega) hc
  omega

/-- C4: `ecdsa_verify` returns false whenever a signature component
fails its decoding or range checks — `r = 0`, `s = 0`, `r ≥ n`, `s ≥ n`
or `s > n/2` (low-S enforced) — and otherwise accepts exactly when the
Jacobian combination `R = u1·G + u2·A` (with `u1 = m/s`, `u2 = r/s`) is
not the identity and satisfies `x(R) ≡ r (mod n)`, decided without
affinizing `R`. -/
theorem ecdsa_verify_checks {p : ℕ} [Fact (Nat.Prime p)] (ec : WeiCtx p)
    (hn1 : 1 < ec.n) (hnp : ec.n ≤ p) (hp2n : p < 2 * ec.n)
    (len M sigr sigs : ℕ) (A : Wge p) :
    ((ec.n ≤ sigr ∨ ec.n ≤ sigs ∨ sigr = 0 ∨ sigs = 0 ∨
        ec.n / 2 < sigs) →
      ecdsa_verify ec len M sigr sigs A = false) ∧
    (sigr < ec.n → sigs < ec.n → sigr ≠ 0 → sigs ≠ 0 →
      sigs ≤ ec.n / 2 →
      (ecdsa_verify ec len M sigr sigs A = true ↔
        (let Rj := ec.jmulDouble
            (sc_mul ec.n ec.m ec.kbits (ecdsa_reduce ec len M).1
              (sc_invert_var ec.n sigs).1) A
            (sc_mul ec.n ec.m ec.kbits sigr (sc_invert_var ec.n sigs).1)
         Rj.z ≠ 0 ∧ (Rj.x * (Rj.z ^ 2)⁻¹).val % ec.n = sigr))) := by
  constructor
  · intro h
    unfold ecdsa_verify
    simp only [sc_import, sc_is_high]
    split_ifs with h1 h2 h3 h4 <;> try rfl
    exfalso
    simp only [decide_eq_true_eq] at h1 h2 h4
    push_neg at h3
    omega
  · intro hr hs hr0 hs0 hhigh
    unfold ecdsa_verify
    simp only [sc_import, sc_is_high]
    rw [if_neg (by simp [hr]), if_neg (by simp [hs]),
      if_neg (by simp [hr0, hs0]), if_neg (by simp; omega)]
    set Rj := ec.jmulDouble
        (sc_mul ec.n ec.m ec.kbits (ecdsa_reduce ec len M).1
          (sc_invert_var ec.n sigs).1) A
        (sc_mul ec.n ec.m ec.kbits sigr (sc_invert_var ec.n sigs).1)
      with hRj
    by_cases hz : Rj.z = 0
    · have : jge_equal_r p ec.n Rj sigr = some false := by
        unfold jge_equal_r
        rw [if_pos hz]
      rw [this]
      simp [hz]
    · rw [jge_equal_r_correct (by omega) hnp hp2n Rj sigr hr hz]
      simp [hz]

/-- Jacobian/affine correspondence used for the double-scalar layer:
the Jacobian result represents the affine point (comparing only the
x-coordinate, which is all verification consumes). -/
def jge_wge_eqv_x {p : ℕ} (J : Jge p) (W : Wge p) : Prop :=
  (W.inf = true → J.z = 0) ∧
  (W.inf = false → J.z ≠ 0 ∧ J.x = W.x * J.z ^ 2)

instance {p : ℕ} (J : Jge p) (W : Wge p) : Decidable (jge_wge_eqv_x J W) :=
  inferInstanceAs (Decidable (And _ _))

theorem ecdsa_sign_loop_some {p : ℕ} (ec : WeiCtx p) (a m : ℕ)
    (nonces : ℕ → ℕ) :
    ∀ fuel start, (∃ i, i < fuel ∧
        ecdsa_sign_try ec a m (nonces (start + i)) ≠ none) →
      ecdsa_sign_loop ec a m nonces fuel start ≠ none := by
  intro fuel
  induction fuel with
  | zero =>
      rintro start ⟨i, hi, _⟩
      omega
  | succ f ih =>
      rintro start ⟨i, hi, hne⟩
      rw [ecdsa_sign_loop]
      rcases htry : ecdsa_sign_try ec a m (nonces start) with _ | out
      · rcases Nat.eq_zero_or_pos i with rfl | hipos
        · simp at hne
          exact absurd htry hne
        · apply ih (start + 1)
          exact ⟨i - 1, by omega, by
            rw [show start + 1 + (i - 1) = start + i by omega]
            exact hne⟩
      · simp

theorem ecdsa_sign_loop_elim {p : ℕ} (ec : WeiCtx p) (a m : ℕ)
    (nonces : ℕ → ℕ) (out : ℕ × ℕ × ℕ) :
    ∀ fuel start, ecdsa_sign_loop ec a m nonces fuel start = some out →
      ∃ j, ecdsa_sign_try ec a m (nonces j) = some out := by
  intro fuel
  induction fuel with
  | zero => intro start h; exact absurd h (by rw [ecdsa_sign_loop]; simp)
  | succ f ih =>
      intro start h
      rw [ecdsa_sign_loop] at h
      rcases htry : ecdsa_sign_try ec a m (nonces start) with _ | o
      · rw [htry] at h
        exact ih (start + 1) h
      · rw [htry] at h
        simp at h
        exact ⟨start, by rw [htry, h]⟩

theorem sc_import_weak_of_ok (n v : ℕ) (h : (sc_import_weak n v).2 = true) :
    (sc_import_weak n v).1 = v ∧ v < n := by
  unfold sc_import_weak at h ⊢
  simp only [decide_eq_true_eq] at h
  simp [h]

theorem ecdsa_sign_try_elim {p : ℕ} (ec : WeiCtx p) (a m bs r s param : ℕ)
    (h : ecdsa_sign_try ec a m bs = some (r, s, param)) :
    ∃ kv, kv < ec.n ∧ kv ≠ 0 ∧ (ec.mulG kv).inf = false ∧
      r = (sc_import_reduce ec.n ec.m ec.kbits ec.bits
        (ec.mulG kv).x.val).1 ∧ r ≠ 0 ∧
      s = (sc_minimize ec.n (sc_mul ec.n ec.m ec.kbits
            (sc_add ec.n (sc_mul ec.n ec.m ec.kbits r a) m)
            (sc_invert ec.n ec.m ec.kbits ec.bits kv).1)).1 := by
  have h2' : (ecdsa_sign_try ec a m bs).map (fun t => (t.1, t.2.1)) =
      some (r, s) := by
    rw [h]
    rfl
  unfold ecdsa_sign_try at h2'
  dsimp only at h2'
  split_ifs at h2' with h1 h2 h3 h4
  all_goals simp at h2'
  all_goals obtain ⟨hr, hs⟩ := h2'
  all_goals
    refine ⟨(ecdsa_reduce ec ec.size bs).1, ?_, h2, by simpa using h3,
      hr.symm, by rw [← hr]; exact h4, by rw [← hs, ← hr]⟩
  all_goals
    unfold ecdsa_reduce at h1 ⊢
  all_goals dsimp only at h1 ⊢
  all_goals
    have hw := sc_import_weak_of_ok _ _ h1
  all_goals omega

theorem natCast_ne_zero_of_lt {n x : ℕ} [NeZero n] (h0 : x ≠ 0)
    (hlt : x < n) : ((x : ℕ) : ZMod n) ≠ 0 := by
  intro hc
  have h1 := ZMod.val_cast_of_lt hlt
  rw [hc, ZMod.val_zero] at h1
  exact h0 h1.symm

theorem natCast_inj_of_lt {n x y : ℕ} [NeZero n] (hx : x < n) (hy : y < n)
    (h : ((x : ℕ) : ZMod n) = ((y : ℕ) : ZMod n)) : x = y := by
  have h1 := ZMod.val_cast_of_lt hx
  have h2 := ZMod.val_cast_of_lt hy
  rw [h] at h1
  omega

theorem sc_invert_var_lt {n : ℕ} [NeZero n] (s : ℕ) :
    (sc_invert_var n s).1 < n := ZMod.val_lt _

theorem sc_invert_var_cast {n : ℕ} [NeZero n] (s : ℕ) :
    (((sc_invert_var n s).1 : ℕ) : ZMod n) = ((s : ZMod n))⁻¹ :=
  ZMod.natCast_rightInverse _

set_option maxHeartbeats 1000000 in
/-- C1 (corrected): for a valid private key `a` and message, `ecdsa_sign`
succeeds as soon as some drawn nonce yields a usable `(k, r)` pair, and
`ecdsa_verify` accepts the produced signature under the public key of `a`
*provided the computed `s` is nonzero* — the `s = 0` case, which the sign
loop does not retry, yields a signature that verify rejects (see the
counterexample).  The double-scalar multiplication layer enters through
its contract `Hjd`, negation through `Hnegx`, and non-degeneracy through
`Hnz`, exactly the group laws the `wei_*` layer provides. -/
theorem ecdsa_sign_verify_roundtrip {p : ℕ} [Fact (Nat.Prime p)]
    (ec : WeiCtx p) (hnn : Nat.Prime ec.n)
    (hm : ec.m = 2 ^ ec.kbits / ec.n) (hnk : ec.n * ec.n ≤ 2 ^ ec.kbits)
    (hbl : 2 ^ (ec.bits - 1) ≤ ec.n) (hbu : ec.n < 2 ^ ec.bits)
    (hb0 : 0 < ec.bits) (hsz : ec.size = (ec.bits + 7) / 8)
    (hkb : ec.bits + 1 ≤ ec.kbits)
    (hnp : ec.n ≤ p) (hp2n : p < 2 * ec.n)
    (Hnz : ∀ k', k' < ec.n → 0 < k' → (ec.mulG k').inf = false)
    (Hnegx : ∀ k', k' < ec.n → 0 < k' →
      (ec.mulG (ec.n - k')).x = (ec.mulG k').x)
    (Hjd : ∀ u1, u1 < ec.n → ∀ u2, u2 < ec.n → ∀ a', a' < ec.n →
      0 < a' →
      jge_wge_eqv_x (ec.jmulDouble u1 (ec.mulG a') u2)
        (ec.mulG ((u1 + u2 * a') % ec.n)))
    (fuel : ℕ) (nonces : ℕ → ℕ) (priv len M : ℕ) (hM : M < 256 ^ len) :
    ((priv < ec.n ∧ priv ≠ 0 ∧ ∃ i, i < fuel ∧
        ecdsa_sign_try ec priv (ecdsa_reduce ec len M).1 (nonces i) ≠
          none) →
      ecdsa_sign ec fuel nonces priv len M ≠ none) ∧
    (∀ r s param,
      ecdsa_sign ec fuel nonces priv len M = some (r, s, param) →
      s ≠ 0 → ecdsa_verify ec len M r s (ec.mulG priv) = true) := by
  haveI : Fact (Nat.Prime ec.n) := ⟨hnn⟩
  have hn1 : 1 < ec.n := hnn.one_lt
  have hn0 : 0 < ec.n := by omega
  constructor
  · rintro ⟨hplt, hp0, i, hi, hne⟩
    unfold ecdsa_sign
    simp only [sc_import]
    rw [if_neg (by simp [hplt]), if_neg (by simpa using hp0)]
    exact ecdsa_sign_loop_some ec priv _ nonces fuel 0
      ⟨i, hi, by simpa using hne⟩
  · intro r s param hsig hs0
    unfold ecdsa_sign at hsig
    simp only [sc_import] at hsig
    by_cases hplt : priv < ec.n
    swap
    · rw [if_pos (by simp [hplt])] at hsig
      exact absurd hsig (by simp)
    rw [if_neg (by simp [hplt])] at hsig
    by_cases hp0 : priv = 0
    · rw [if_pos hp0] at hsig
      exact absurd hsig (by simp)
    rw [if_neg hp0] at hsig
    set m0 := (ecdsa_reduce ec len M).1 with hm0def
    obtain ⟨j, htry⟩ := ecdsa_sign_loop_elim ec priv m0 nonces _ fuel 0 hsig
    obtain ⟨kv, hklt, hk0, hRinf, hrdef, hr0, hsdef⟩ :=
      ecdsa_sign_try_elim ec priv m0 (nonces j) r s param htry
    set R := ec.mulG kv with hRdef
    have hRvlt : R.x.val < p := ZMod.val_lt _
    have hpk : p < 2 ^ ec.kbits := by
      have h1 : 2 * ec.n ≤ 2 * 2 ^ ec.bits := by omega
      have h2 : 2 * 2 ^ ec.bits = 2 ^ (ec.bits + 1) := (pow_succ' 2 _).symm
      have h3 : 2 ^ (ec.bits + 1) ≤ 2 ^ ec.kbits :=
        Nat.pow_le_pow_right (by norm_num) hkb
      omega
    have hrmod : r = R.x.val % ec.n := by
      rw [hrdef]
      exact sc_import_reduce_eq_mod ec.n ec.m ec.kbits ec.bits _ hn0 hm
        (by omega) (by omega)
    have hrlt : r < ec.n := by
      rw [hrmod]
      exact Nat.mod_lt _ hn0
    set kinv := (sc_invert ec.n ec.m ec.kbits ec.bits kv).1 with hkinvdef
    have hkinvlt : kinv < ec.n :=
      sc_invert_lt ec.n ec.m ec.kbits ec.bits kv hn1 hm hnk hklt
    have hkinvcast : ((kinv : ℕ) : ZMod ec.n) = (kv : ZMod ec.n)⁻¹ :=
      sc_invert_cast ec.m ec.kbits ec.bits kv hm hnk hbu hklt hk0
    have hm0lt : m0 < ec.n :=
      ecdsa_reduce_spec ec len M hn0 hbl hb0 hsz hM
    have hralt : sc_mul ec.n ec.m ec.kbits r priv < ec.n :=
      sc_mul_lt ec.n ec.m ec.kbits r priv hn0 hm hnk hrlt hplt
    have hsumlt : sc_add ec.n (sc_mul ec.n ec.m ec.kbits r priv) m0 < ec.n :=
      sc_add_lt ec.n _ m0 hralt hm0lt
    set s2 := sc_mul ec.n ec.m ec.kbits
      (sc_add ec.n (sc_mul ec.n ec.m ec.kbits r priv) m0) kinv with hs2def
    have hs2lt : s2 < ec.n :=
      sc_mul_lt ec.n ec.m ec.kbits _ kinv hn0 hm hnk hsumlt hkinvlt
    have hs2cast : ((s2 : ℕ) : ZMod ec.n) =
        ((r : ZMod ec.n) * (priv : ZMod ec.n) + (m0 : ZMod ec.n)) *
          (kv : ZMod ec.n)⁻¹ := by
      rw [hs2def, sc_mul_eq_mod ec.n ec.m ec.kbits _ kinv hn0 hm hnk
        hsumlt hkinvlt, ZMod.natCast_mod, Nat.cast_mul, hkinvcast,
        sc_add_eq_mod ec.n _ m0 hralt hm0lt, ZMod.natCast_mod,
        Nat.cast_add, sc_mul_eq_mod ec.n ec.m ec.kbits r priv hn0 hm hnk
          hrlt hplt, ZMod.natCast_mod, Nat.cast_mul]
    have hs20 : s2 ≠ 0 := by
      intro h0
      apply hs0
      rw [hsdef, h0]
      simp [sc_minimize, sc_is_high, sc_neg_cond]
    have hminval := sc_minimize_val ec.n s2 hs2lt hs20
    have hslt : s < ec.n := by
      rw [hsdef]
      exact sc_minimize_lt ec.n s2 hn0 hs2lt
    have hshalf : s ≤ ec.n / 2 := by
      rw [hsdef]
      exact sc_minimize_le_half ec.n s2 hs2lt
    have hscast : ((s : ℕ) : ZMod ec.n) = ((s2 : ℕ) : ZMod ec.n) ∨
        ((s : ℕ) : ZMod ec.n) = -((s2 : ℕ) : ZMod ec.n) := by
      rw [hsdef, hminval]
      by_cases hc : ec.n / 2 < s2
      · right
        simp only [hc, if_true, if_pos]
        rw [Nat.cast_sub (le_of_lt hs2lt), ZMod.natCast_self, zero_sub]
      · left
        simp [hc]
    -- verify
    unfold ecdsa_verify
    simp only [sc_import, sc_is_high]
    rw [if_neg (by simp [hrlt]), if_neg (by simp [hslt]),
      if_neg (by simp [hr0, hs0]), if_neg (by simp; omega)]
    rw [← hm0def]
    set sinv := (sc_invert_var ec.n s).1 with hsinvdef
    have hsinvlt : sinv < ec.n := sc_invert_var_lt s
    have hsc0 : ((s : ℕ) : ZMod ec.n) ≠ 0 := natCast_ne_zero_of_lt hs0 hslt
    have hkc0 : ((kv : ℕ) : ZMod ec.n) ≠ 0 := natCast_ne_zero_of_lt hk0 hklt
    have hT : (r : ZMod ec.n) * (priv : ZMod ec.n) + (m0 : ZMod ec.n) ≠ 0 := by
      intro hc
      rcases hscast with hε | hε <;>
        rw [hs2cast, hc, zero_mul] at hε <;> simp [hε] at hsc0
    set u1 := sc_mul ec.n ec.m ec.kbits m0 sinv with hu1def
    set u2 := sc_mul ec.n ec.m ec.kbits r sinv with hu2def
    have hu1lt : u1 < ec.n :=
      sc_mul_lt ec.n ec.m ec.kbits m0 sinv hn0 hm hnk hm0lt hsinvlt
    have hu2lt : u2 < ec.n :=
      sc_mul_lt ec.n ec.m ec.kbits r sinv hn0 hm hnk hrlt hsinvlt
    set K' := (u1 + u2 * priv) % ec.n with hKprimedef
    have hK'lt : K' < ec.n := Nat.mod_lt _ hn0
    have hK'cast : ((K' : ℕ) : ZMod ec.n) = ((kv : ℕ) : ZMod ec.n) ∨
        ((K' : ℕ) : ZMod ec.n) = -((kv : ℕ) : ZMod ec.n) := by
      have hu1c : ((u1 : ℕ) : ZMod ec.n) =
          (m0 : ZMod ec.n) * ((s : ZMod ec.n))⁻¹ := by
        rw [hu1def, sc_mul_eq_mod ec.n ec.m ec.kbits m0 sinv hn0 hm hnk
          hm0lt hsinvlt, ZMod.natCast_mod, Nat.cast_mul, hsinvdef,
          sc_invert_var_cast]
      have hu2c : ((u2 : ℕ) : ZMod ec.n) =
          (r : ZMod ec.n) * ((s : ZMod ec.n))⁻¹ := by
        rw [hu2def, sc_mul_eq_mod ec.n ec.m ec.kbits r sinv hn0 hm hnk
          hrlt hsinvlt, ZMod.natCast_mod, Nat.cast_mul, hsinvdef,
          sc_invert_var_cast]
      have hKcomb : ((K' : ℕ) : ZMod ec.n) =
          ((r : ZMod ec.n) * (priv : ZMod ec.n) + (m0 : ZMod ec.n)) *
            ((s : ZMod ec.n))⁻¹ := by
        rw [hKprimedef, ZMod.natCast_mod, Nat.cast_add, Nat.cast_mul,
          hu1c, hu2c]
        ring
      rcases hscast with hε | hε
      · left
        rw [hKcomb, hε, hs2cast]
        rw [mul_inv_rev, inv_inv]
        field_simp
      · right
        rw [hKcomb, hε, hs2cast, inv_neg, mul_neg, mul_inv_rev, inv_inv]
        rw [neg_eq_iff_eq_neg, neg_neg]
        field_simp
    have hK'0 : K' ≠ 0 := by
      intro h0
      rcases hK'cast with hc | hc <;> rw [h0] at hc
      · exact hkc0 (by simpa using hc.symm)
      · exact hkc0 (by simpa [neg_eq_zero] using hc.symm)
    have hK'pos : 0 < K' := Nat.pos_of_ne_zero hK'0
    have hK'case : K' = kv ∨ K' = ec.n - kv := by
      rcases hK'cast with hc | hc
      · left
        exact natCast_inj_of_lt hK'lt hklt hc
      · right
        have hnk' : ((ec.n - kv : ℕ) : ZMod ec.n) =
            -((kv : ℕ) : ZMod ec.n) := by
          rw [Nat.cast_sub (le_of_lt hklt), ZMod.natCast_self, zero_sub]
        exact natCast_inj_of_lt hK'lt (by omega) (by rw [hc, ← hnk'])
    set W := ec.mulG K' with hWdef
    have hWinf : W.inf = false := Hnz K' hK'lt hK'pos
    have hWx : W.x = R.x := by
      rcases hK'case with hc | hc
      · rw [hWdef, hc, hRdef]
      · rw [hWdef, hc, hRdef]
        exact Hnegx kv hklt (Nat.pos_of_ne_zero hk0)
    have heqv := Hjd u1 hu1lt u2 hu2lt priv hplt (Nat.pos_of_ne_zero hp0)
    rw [← hKprimedef, ← hWdef] at heqv
    obtain ⟨hz, hx⟩ := heqv.2 hWinf
    rw [jge_equal_r_correct hn0 hnp hp2n _ r hrlt hz]
    simp only [Option.getD_some, decide_eq_true_eq]
    have hxa : (ec.jmulDouble u1 (ec.mulG priv) u2).x *
        (((ec.jmulDouble u1 (ec.mulG priv) u2).z) ^ 2)⁻¹ = W.x := by
      rw [hx, mul_assoc, mul_inv_cancel₀ (pow_ne_zero 2 hz), mul_one]
    rw [hxa, hWx]
    exact hrmod.symm

theorem sc_import_reduce_snd (n m k bits v : ℕ) :
    (sc_import_reduce n m k bits v).2 = decide (v < n) := by
  unfold sc_import_reduce sc_import_weak sc_import_strong
  split <;> rfl

theorem sc_neg_cast {n : ℕ} [NeZero n] (a : ℕ) (ha : a < n) :
    ((sc_neg n a : ℕ) : ZMod n) = -((a : ℕ) : ZMod n) := by
  unfold sc_neg
  by_cases h : a = 0
  · simp [h]
  · rw [if_neg h, Nat.cast_sub (le_of_lt ha), ZMod.natCast_self, zero_sub]

theorem wge_eq_mk {p : ℕ} (W : Wge p) (x y : ZMod p) (b : Bool)
    (hx : W.x = x) (hy : W.y = y) (hb : W.inf = b) : W = ⟨x, y, b⟩ := by
  cases W
  simp_all

theorem fe_set_odd_of_sq {p : ℕ} [Fact (Nat.Prime p)] (hodd : p % 2 = 1)
    (w y : ZMod p) (hy : y ≠ 0) (hw : w ^ 2 = y ^ 2) (s : Bool)
    (hs : fe_is_odd y = s) : fe_set_odd w s = y := by
  have hfac : (w - y) * (w + y) = 0 := by linear_combination hw
  have hcases : w = y ∨ w = -y := by
    rcases mul_eq_zero.mp hfac with h | h
    · exact Or.inl (sub_eq_zero.mp h)
    · exact Or.inr (add_eq_zero_iff_eq_neg.mp h)
  rcases hcases with rfl | rfl
  · unfold fe_set_odd fe_neg_cond
    rw [hs]
    cases s <;> simp
  · unfold fe_set_odd fe_neg_cond
    rw [fe_is_odd_neg hodd y hy, hs]
    cases s <;> simp

theorem ecdsa_sign_try_elim_param {p : ℕ} (ec : WeiCtx p)
    (a m bs r s param : ℕ)
    (h : ecdsa_sign_try ec a m bs = some (r, s, param)) :
    ∃ kv, kv < ec.n ∧ kv ≠ 0 ∧ (ec.mulG kv).inf = false ∧
      r = (sc_import_reduce ec.n ec.m ec.kbits ec.bits
        (ec.mulG kv).x.val).1 ∧ r ≠ 0 ∧
      s = (sc_minimize ec.n (sc_mul ec.n ec.m ec.kbits
            (sc_add ec.n (sc_mul ec.n ec.m ec.kbits r a) m)
            (sc_invert ec.n ec.m ec.kbits ec.bits kv).1)).1 ∧
      param = 2 * (if !(sc_import_reduce ec.n ec.m ec.kbits ec.bits
            (ec.mulG kv).x.val).2 then 1 else 0) +
        (if (fe_is_odd (ec.mulG kv).y ^^
            (sc_minimize ec.n (sc_mul ec.n ec.m ec.kbits
              (sc_add ec.n (sc_mul ec.n ec.m ec.kbits r a) m)
              (sc_invert ec.n ec.m ec.kbits ec.bits kv).1)).2) then 1
          else 0) := by
  unfold ecdsa_sign_try at h
  dsimp only at h
  split_ifs at h with h1 h2 h3 h4 h5 h6
  all_goals simp at h
  all_goals obtain ⟨hr, hs, hp⟩ := h
  all_goals
    refine ⟨(ecdsa_reduce ec ec.size bs).1, ?_, h2, by simpa using h3,
      hr.symm, by rw [← hr]; exact h4, by rw [← hs, ← hr], ?_⟩
  all_goals
    first
    | (unfold ecdsa_reduce at h1 ⊢
       dsimp only at h1 ⊢
       have hw := sc_import_weak_of_ok _ _ h1
       omega)
    | (rw [← hp, ← hr]
       clear hp hs hr h2 h4
       split_ifs <;> simp_all)

set_option maxHeartbeats 1600000 in
/-- C3 (corrected): public-key recovery inverts signing.  When the high
bit of the recovery parameter is set, `ecdsa_recover` requires
`r < p mod n` (first conjunct) and lifts `x = r + n` before
reconstructing `R`; and for every signature `(r, s, param)` produced by
`ecdsa_sign` from private key `priv` *with `s ≠ 0`* (the `s = 0` case is
emitted unretried and rejected by recover, see the counterexample),
`ecdsa_recover` returns exactly `ecdsa_pubkey_create priv` (second
conjunct).  The scalar-multiplication layer, negation, square root and
on-curve facts enter through the contracts `Hnz`, `Hneg`, `Hy`,
`Hcurve`, `Hsqrt` and `Hmd`, exactly what the `wei_*` layer provides. -/
theorem ecdsa_recover_roundtrip {p : ℕ} [Fact (Nat.Prime p)]
    (ec : WeiCtx p) (hnn : Nat.Prime ec.n)
    (hm : ec.m = 2 ^ ec.kbits / ec.n) (hnk : ec.n * ec.n ≤ 2 ^ ec.kbits)
    (hbl : 2 ^ (ec.bits - 1) ≤ ec.n) (hbu : ec.n < 2 ^ ec.bits)
    (hb0 : 0 < ec.bits) (hsz : ec.size = (ec.bits + 7) / 8)
    (hkb : ec.bits + 1 ≤ ec.kbits)
    (hnp : ec.n ≤ p) (hp2n : p < 2 * ec.n) (hpodd : p % 2 = 1)
    (Hnz : ∀ k', k' < ec.n → 0 < k' → (ec.mulG k').inf = false)
    (Hneg : ∀ k', k' < ec.n → 0 < k' →
      (ec.mulG (ec.n - k')).x = (ec.mulG k').x ∧
        (ec.mulG (ec.n - k')).y = -(ec.mulG k').y)
    (Hy : ∀ k', k' < ec.n → 0 < k' → (ec.mulG k').y ≠ 0)
    (Hcurve : ∀ k', k' < ec.n → 0 < k' →
      (ec.mulG k').y ^ 2 = (ec.mulG k').x ^ 2 * (ec.mulG k').x +
        ec.wa * (ec.mulG k').x + ec.wb)
    (Hsqrt : ∀ z : ZMod p,
      ((ec.sqrtFn z).2 = true → (ec.sqrtFn z).1 ^ 2 = z) ∧
        (∀ w : ZMod p, w ^ 2 = z → (ec.sqrtFn z).2 = true))
    (Hmd : ∀ s1, s1 < ec.n → ∀ s2, s2 < ec.n → ∀ k', k' < ec.n →
      0 < k' →
      ec.mulDouble s1 (ec.mulG k') s2 = ec.mulG ((s1 + s2 * k') % ec.n))
    (fuel : ℕ) (nonces : ℕ → ℕ) (priv len M : ℕ) (hM : M < 256 ^ len) :
    (∀ sigr sigs prm, sigr < ec.n → sigs < ec.n → sigr ≠ 0 → sigs ≠ 0 →
      sigs ≤ ec.n / 2 → prm / 2 ≠ 0 → p % ec.n ≤ sigr →
      ecdsa_recover ec len M sigr sigs prm = none) ∧
    (∀ r s prm,
      ecdsa_sign ec fuel nonces priv len M = some (r, s, prm) →
      s ≠ 0 →
      ecdsa_recover ec len M r s prm = ecdsa_pubkey_create ec priv) := by
  haveI : Fact (Nat.Prime ec.n) := ⟨hnn⟩
  have hn1 : 1 < ec.n := hnn.one_lt
  have hn0 : 0 < ec.n := by omega
  constructor
  · intro sigr sigs prm hrl hsl hr0 hs0 hsh hpar hge
    unfold ecdsa_recover
    simp only [sc_import, sc_is_high]
    rw [if_neg (by simp [hrl]), if_neg (by simp [hsl]),
      if_neg (by simp [hr0, hs0]), if_neg (by simp; omega)]
    rw [if_pos hpar]
    have hd : decide (sigr < p % ec.n) = false := by simp; omega
    rw [hd]
    simp
  · intro r s prm hsig hs0
    unfold ecdsa_sign at hsig
    simp only [sc_import] at hsig
    by_cases hplt : priv < ec.n
    swap
    · rw [if_pos (by simp [hplt])] at hsig
      exact absurd hsig (by simp)
    rw [if_neg (by simp [hplt])] at hsig
    by_cases hp0 : priv = 0
    · rw [if_pos hp0] at hsig
      exact absurd hsig (by simp)
    rw [if_neg hp0] at hsig
    set m0 := (ecdsa_reduce ec len M).1 with hm0def
    obtain ⟨j, htry⟩ := ecdsa_sign_loop_elim ec priv m0 nonces _ fuel 0 hsig
    obtain ⟨kv, hklt, hk0, hRinf, hrdef, hr0, hsdef, hparamdef⟩ :=
      ecdsa_sign_try_elim_param ec priv m0 (nonces j) r s prm htry
    set R := ec.mulG kv with hRdef
    have hkpos : 0 < kv := Nat.pos_of_ne_zero hk0
    have hRvlt : R.x.val < p := ZMod.val_lt _
    have hpk : p < 2 ^ ec.kbits := by
      have h1 : 2 * ec.n ≤ 2 * 2 ^ ec.bits := by omega
      have h2 : 2 * 2 ^ ec.bits = 2 ^ (ec.bits + 1) := (pow_succ' 2 _).symm
      have h3 : 2 ^ (ec.bits + 1) ≤ 2 ^ ec.kbits :=
        Nat.pow_le_pow_right (by norm_num) hkb
      omega
    have hrmod : r = R.x.val % ec.n := by
      rw [hrdef]
      exact sc_import_reduce_eq_mod ec.n ec.m ec.kbits ec.bits _ hn0 hm
        (by omega) (by omega)
    have hrlt : r < ec.n := by
      rw [hrmod]
      exact Nat.mod_lt _ hn0
    set kinv := (sc_invert ec.n ec.m ec.kbits ec.bits kv).1 with hkinvdef
    have hkinvlt : kinv < ec.n :=
      sc_invert_lt ec.n ec.m ec.kbits ec.bits kv hn1 hm hnk hklt
    have hkinvcast : ((kinv : ℕ) : ZMod ec.n) = (kv : ZMod ec.n)⁻¹ :=
      sc_invert_cast ec.m ec.kbits ec.bits kv hm hnk hbu hklt hk0
    have hm0lt : m0 < ec.n :=
      ecdsa_reduce_spec ec len M hn0 hbl hb0 hsz hM
    have hralt : sc_mul ec.n ec.m ec.kbits r priv < ec.n :=
      sc_mul_lt ec.n ec.m ec.kbits r priv hn0 hm hnk hrlt hplt
    have hsumlt : sc_add ec.n (sc_mul ec.n ec.m ec.kbits r priv) m0 <
        ec.n := sc_add_lt ec.n _ m0 hralt hm0lt
    set s2v := sc_mul ec.n ec.m ec.kbits
      (sc_add ec.n (sc_mul ec.n ec.m ec.kbits r priv) m0) kinv with hs2def
    have hs2lt : s2v < ec.n :=
      sc_mul_lt ec.n ec.m ec.kbits _ kinv hn0 hm hnk hsumlt hkinvlt
    have hs2cast : ((s2v : ℕ) : ZMod ec.n) =
        ((r : ZMod ec.n) * (priv : ZMod ec.n) + (m0 : ZMod ec.n)) *
          (kv : ZMod ec.n)⁻¹ := by
      rw [hs2def, sc_mul_eq_mod ec.n ec.m ec.kbits _ kinv hn0 hm hnk
        hsumlt hkinvlt, ZMod.natCast_mod, Nat.cast_mul, hkinvcast,
        sc_add_eq_mod ec.n _ m0 hralt hm0lt, ZMod.natCast_mod,
        Nat.cast_add, sc_mul_eq_mod ec.n ec.m ec.kbits r priv hn0 hm hnk
          hrlt hplt, ZMod.natCast_mod, Nat.cast_mul]
    have hs20 : s2v ≠ 0 := by
      intro h0
      apply hs0
      rw [hsdef, h0]
      simp [sc_minimize, sc_is_high, sc_neg_cond]
    have hminval := sc_minimize_val ec.n s2v hs2lt hs20
    have hslt : s < ec.n := by
      rw [hsdef]
      exact sc_minimize_lt ec.n s2v hn0 hs2lt
    have hshalf : s ≤ ec.n / 2 := by
      rw [hsdef]
      exact sc_minimize_le_half ec.n s2v hs2lt
    set rinv := (sc_invert_var ec.n r).1 with hrinvdef
    have hrinvlt : rinv < ec.n := sc_invert_var_lt r
    have hrinvcast : ((rinv : ℕ) : ZMod ec.n) = ((r : ZMod ec.n))⁻¹ :=
      sc_invert_var_cast r
    have hrc0 : ((r : ℕ) : ZMod ec.n) ≠ 0 := natCast_ne_zero_of_lt hr0 hrlt
    have hkc0 : ((kv : ℕ) : ZMod ec.n) ≠ 0 :=
      natCast_ne_zero_of_lt hk0 hklt
    have hy0 : R.y ≠ 0 := Hy kv hklt hkpos
    have hcv := Hcurve kv hklt hkpos
    have hmul1lt : sc_mul ec.n ec.m ec.kbits m0 rinv < ec.n :=
      sc_mul_lt ec.n ec.m ec.kbits m0 rinv hn0 hm hnk hm0lt hrinvlt
    have hs1lt : sc_neg ec.n (sc_mul ec.n ec.m ec.kbits m0 rinv) < ec.n :=
      sc_neg_lt ec.n _ hn0 hmul1lt
    have hs2Nlt : sc_mul ec.n ec.m ec.kbits s rinv < ec.n :=
      sc_mul_lt ec.n ec.m ec.kbits s rinv hn0 hm hnk hslt hrinvlt
    have hsq2 : (ec.sqrtFn (R.x ^ 2 * R.x + ec.wa * R.x + ec.wb)).2 =
        true := (Hsqrt _).2 R.y hcv
    have hsq1 : (ec.sqrtFn (R.x ^ 2 * R.x + ec.wa * R.x + ec.wb)).1 ^ 2 =
        R.y ^ 2 := by
      rw [(Hsqrt _).1 hsq2]
      exact hcv.symm
    have hsgneq : decide (prm % 2 = 1) =
        (fe_is_odd R.y ^^ (sc_minimize ec.n s2v).2) := by
      rw [hparamdef]
      cases hA : (!(sc_import_reduce ec.n ec.m ec.kbits ec.bits
          R.x.val).2) <;>
        cases hB : (fe_is_odd R.y ^^ (sc_minimize ec.n s2v).2) <;>
          simp [hA, hB]
    suffices hS : (if ¬((wge_set_x ec.wa ec.wb ec.sqrtFn R.x
          (some (decide (prm % 2 = 1)))).2 = true) then none
        else wge_export (ec.mulDouble
          (sc_neg ec.n (sc_mul ec.n ec.m ec.kbits m0 rinv))
          (wge_set_x ec.wa ec.wb ec.sqrtFn R.x
            (some (decide (prm % 2 = 1)))).1
          (sc_mul ec.n ec.m ec.kbits s rinv))) =
        ecdsa_pubkey_create ec priv by
      unfold ecdsa_recover
      simp only [sc_import, sc_is_high]
      rw [if_neg (by simp [hrlt]), if_neg (by simp [hslt]),
        if_neg (by simp [hr0, hs0]), if_neg (by simp; omega)]
      rw [← hm0def, ← hrinvdef]
      by_cases hwrap : R.x.val < ec.n
      · have h2nd : (sc_import_reduce ec.n ec.m ec.kbits ec.bits
            R.x.val).2 = true := by
          rw [sc_import_reduce_snd]
          simp [hwrap]
        have hprm : prm / 2 = 0 := by
          rcases hB : (fe_is_odd R.y ^^ (sc_minimize ec.n s2v).2) <;>
            rw [hparamdef, h2nd, hB] <;> rfl
        rw [if_neg (show ¬(prm / 2 ≠ 0) by simp [hprm])]
        rw [if_neg (show ¬(prm / 2 ≠ 0) by simp [hprm])]
        have hxA : ((r : ℕ) : ZMod p) = R.x := by
          rw [hrmod, Nat.mod_eq_of_lt hwrap, ZMod.natCast_val,
            ZMod.cast_id]
        rw [if_neg (by simp), hxA]
        exact hS
      · have h2nd : (sc_import_reduce ec.n ec.m ec.kbits ec.bits
            R.x.val).2 = false := by
          rw [sc_import_reduce_snd]
          simp [hwrap]
        have hprm : prm / 2 = 1 := by
          rcases hB : (fe_is_odd R.y ^^ (sc_minimize ec.n s2v).2) <;>
            rw [hparamdef, h2nd, hB] <;> rfl
        have hpn : p % ec.n = p - ec.n := by
          rw [Nat.mod_eq_sub_mod hnp, Nat.mod_eq_of_lt (by omega)]
        have hrval : r = R.x.val - ec.n := by
          rw [hrmod, Nat.mod_eq_sub_mod (by omega),
            Nat.mod_eq_of_lt (by omega)]
        have hok : decide (r < p % ec.n) = true := by
          simp only [decide_eq_true_eq]
          omega
        rw [if_pos (show prm / 2 ≠ 0 by omega)]
        rw [hok]
        rw [if_pos (show prm / 2 ≠ 0 by omega)]
        have hxB : ((r : ℕ) : ZMod p) + (ec.n : ZMod p) = R.x := by
          have hcombine : ((r : ℕ) : ZMod p) + ((ec.n : ℕ) : ZMod p) =
              ((r + ec.n : ℕ) : ZMod p) := by
            push_cast
            ring
          rw [hcombine, show r + ec.n = R.x.val by omega,
            ZMod.natCast_val, ZMod.cast_id]
        rw [if_neg (by simp), hxB]
        exact hS
    unfold wge_set_x
    dsimp only
    rw [hsq2]
    rw [if_neg (by simp)]
    by_cases hc : ec.n / 2 < s2v
    · have hsmT : (sc_minimize ec.n s2v).2 = true := by
        rw [hminval]
        simp [hc]
      have hsval : s = ec.n - s2v := by
        rw [hsdef, hminval]
        simp [hc]
      have hsgn2 : decide (prm % 2 = 1) = !fe_is_odd R.y := by
        rw [hsgneq, hsmT, Bool.xor_true]
      have hK'lt : ec.n - kv < ec.n := by omega
      have hK'pos : 0 < ec.n - kv := by omega
      have hGK'x : (ec.mulG (ec.n - kv)).x = R.x :=
        (Hneg kv hklt hkpos).1
      have hGK'y : (ec.mulG (ec.n - kv)).y = -R.y :=
        (Hneg kv hklt hkpos).2
      have hGK'i : (ec.mulG (ec.n - kv)).inf = false := Hnz _ hK'lt hK'pos
      have hyset : fe_set_odd
          (ec.sqrtFn (R.x ^ 2 * R.x + ec.wa * R.x + ec.wb)).1
          (decide (prm % 2 = 1)) = -R.y :=
        fe_set_odd_of_sq hpodd _ (-R.y) (neg_ne_zero.mpr hy0)
          (by rw [hsq1, neg_sq]) _
          (by rw [fe_is_odd_neg hpodd R.y hy0, hsgn2])
      have hRr : (⟨R.x, fe_set_odd
          (ec.sqrtFn (R.x ^ 2 * R.x + ec.wa * R.x + ec.wb)).1
          (decide (prm % 2 = 1)), false⟩ : Wge p) = ec.mulG (ec.n - kv) := by
        rw [hyset]
        exact (wge_eq_mk (ec.mulG (ec.n - kv)) R.x (-R.y) false hGK'x
          hGK'y hGK'i).symm
      rw [hRr, Hmd _ hs1lt _ hs2Nlt _ hK'lt hK'pos]
      have hscast : ((s : ℕ) : ZMod ec.n) = -((s2v : ℕ) : ZMod ec.n) := by
        rw [hsval, Nat.cast_sub (le_of_lt hs2lt), ZMod.natCast_self,
          zero_sub]
      have hK'cast : ((ec.n - kv : ℕ) : ZMod ec.n) =
          -((kv : ℕ) : ZMod ec.n) := by
        rw [Nat.cast_sub (le_of_lt hklt), ZMod.natCast_self, zero_sub]
      have hfin : (sc_neg ec.n (sc_mul ec.n ec.m ec.kbits m0 rinv) +
          sc_mul ec.n ec.m ec.kbits s rinv * (ec.n - kv)) % ec.n =
          priv := by
        apply natCast_inj_of_lt (Nat.mod_lt _ hn0) hplt
        rw [ZMod.natCast_mod, Nat.cast_add, Nat.cast_mul,
          sc_neg_cast _ hmul1lt,
          sc_mul_eq_mod ec.n ec.m ec.kbits m0 rinv hn0 hm hnk hm0lt
            hrinvlt,
          sc_mul_eq_mod ec.n ec.m ec.kbits s rinv hn0 hm hnk hslt
            hrinvlt,
          ZMod.natCast_mod, ZMod.natCast_mod, Nat.cast_mul, Nat.cast_mul,
          hrinvcast, hscast, hK'cast, hs2cast]
        field_simp
        ring
      rw [hfin]
      unfold ecdsa_pubkey_create
      simp only [sc_import]
      rw [if_neg (by simp [hplt]), if_neg hp0]
    · have hsmF : (sc_minimize ec.n s2v).2 = false := by
        rw [hminval]
        simp [hc]
      have hsval : s = s2v := by
        rw [hsdef, hminval]
        simp [hc]
      have hsgn2 : decide (prm % 2 = 1) = fe_is_odd R.y := by
        rw [hsgneq, hsmF, Bool.xor_false]
      have hyset : fe_set_odd
          (ec.sqrtFn (R.x ^ 2 * R.x + ec.wa * R.x + ec.wb)).1
          (decide (prm % 2 = 1)) = R.y :=
        fe_set_odd_of_sq hpodd _ R.y hy0 hsq1 _ hsgn2.symm
      have hRr : (⟨R.x, fe_set_odd
          (ec.sqrtFn (R.x ^ 2 * R.x + ec.wa * R.x + ec.wb)).1
          (decide (prm % 2 = 1)), false⟩ : Wge p) = ec.mulG kv := by
        rw [hyset]
        exact (wge_eq_mk R R.x R.y false rfl rfl hRinf).symm
      rw [hRr, Hmd _ hs1lt _ hs2Nlt _ hklt hkpos]
      have hscast : ((s : ℕ) : ZMod ec.n) = ((s2v : ℕ) : ZMod ec.n) := by
        rw [hsval]
      have hfin : (sc_neg ec.n (sc_mul ec.n ec.m ec.kbits m0 rinv) +
          sc_mul ec.n ec.m ec.kbits s rinv * kv) % ec.n = priv := by
        apply natCast_inj_of_lt (Nat.mod_lt _ hn0) hplt
        rw [ZMod.natCast_mod, Nat.cast_add, Nat.cast_mul,
          sc_neg_cast _ hmul1lt,
          sc_mul_eq_mod ec.n ec.m ec.kbits m0 rinv hn0 hm hnk hm0lt
            hrinvlt,
          sc_mul_eq_mod ec.n ec.m ec.kbits s rinv hn0 hm hnk hslt
            hrinvlt,
          ZMod.natCast_mod, ZMod.natCast_mod, Nat.cast_mul, Nat.cast_mul,
          hrinvcast, hscast, hs2cast]
        field_simp
        ring
      rw [hfin]
      unfold ecdsa_pubkey_create
      simp only [sc_import]
      rw [if_neg (by simp [hplt]), if_neg hp0]


/-! ### A concrete instantiation over `F_7` (curve `y^2 = x^3 + 5`,
order-7 group generated by `(3, 2)`), used to exercise the protocol
theorems on explicit inputs. -/

/-- Plain double-and-add over the Jacobian formulas, scanning `i` bits. -/
def jge_mul_bits {p : ℕ} (a : ZMod p) (za ta : Bool) (hcof : ℕ)
    (G : Jge p) (k : ℕ) : ℕ → Jge p → Jge p
  | 0, acc => acc
  | i + 1, acc =>
      let acc2 := jge_dbl a za ta hcof acc
      jge_mul_bits a za ta hcof G k i
        (if k.testBit i then jge_add a za acc2 G else acc2)

/-- Affinize a Jacobian point over `F_7`; the field inverse is the
Fermat power `x^5`, which the kernel can evaluate. -/
def jge_to_wge_aff (J : Jge 7) : Wge 7 :=
  if J.z = 0 then ⟨0, 0, true⟩
  else ⟨J.x * (J.z ^ 2) ^ 5, J.y * (J.z ^ 2 * J.z) ^ 5, false⟩

/-- Affine to Jacobian. -/
def wge_to_jge {p : ℕ} (W : Wge p) : Jge p :=
  if W.inf then jge_zero p else ⟨W.x, W.y, 1⟩

def toyG : Jge 7 := ⟨3, 2, 1⟩

def toyMulJ (J : Jge 7) (k : ℕ) : Jge 7 :=
  jge_mul_bits 0 true false 1 J k 3 (jge_zero 7)

def toyMulG (k : ℕ) : Wge 7 :=
  jge_to_wge_aff (toyMulJ toyG k)

def toyJmulDouble (u1 : ℕ) (A : Wge 7) (u2 : ℕ) : Jge 7 :=
  jge_add 0 true (toyMulJ toyG u1) (toyMulJ (wge_to_jge A) u2)

/-- Discrete logarithm on the order-7 toy group, by table lookup. -/
def toyLog (W : Wge 7) : ℕ :=
  if W = ⟨3, 2, false⟩ then 1
  else if W = ⟨5, 2, false⟩ then 2
  else if W = ⟨6, 5, false⟩ then 3
  else if W = ⟨6, 2, false⟩ then 4
  else if W = ⟨5, 5, false⟩ then 5
  else if W = ⟨3, 5, false⟩ then 6
  else 0

def toyMulDouble (s1 : ℕ) (A : Wge 7) (s2 : ℕ) : Wge 7 :=
  toyMulG ((s1 + s2 * toyLog A) % 7)

def toyCtx : WeiCtx 7 :=
  ⟨7, 9362, 16, 3, 1, 0, 5, toyMulG, toyJmulDouble, toyMulDouble,
    fe_sqrt 7⟩

theorem toy_Hnz : ∀ k', k' < 7 → 0 < k' → (toyMulG k').inf = false := by
  decide

theorem toy_Hnegx : ∀ k', k' < 7 → 0 < k' →
    (toyMulG (7 - k')).x = (toyMulG k').x := by
  decide

set_option maxRecDepth 10000 in
theorem toy_Hjd : ∀ u1, u1 < 7 → ∀ u2, u2 < 7 → ∀ a', a' < 7 → 0 < a' →
    jge_wge_eqv_x (toyJmulDouble u1 (toyMulG a') u2)
      (toyMulG ((u1 + u2 * a') % 7)) := by
  decide

theorem toy_Hneg : ∀ k', k' < 7 → 0 < k' →
    (toyMulG (7 - k')).x = (toyMulG k').x ∧
      (toyMulG (7 - k')).y = -(toyMulG k').y := by
  decide

theorem toy_Hy : ∀ k', k' < 7 → 0 < k' → (toyMulG k').y ≠ 0 := by
  decide

theorem toy_Hcurve : ∀ k', k' < 7 → 0 < k' →
    (toyMulG k').y ^ 2 = (toyMulG k').x ^ 2 * (toyMulG k').x +
      (0 : ZMod 7) * (toyMulG k').x + (5 : ZMod 7) := by
  decide

theorem toy_Hsqrt : ∀ z : ZMod 7,
    ((fe_sqrt 7 z).2 = true → (fe_sqrt 7 z).1 ^ 2 = z) ∧
      (∀ w : ZMod 7, w ^ 2 = z → (fe_sqrt 7 z).2 = true) := by
  decide

set_option maxRecDepth 10000 in
set_option maxHeartbeats 1000000 in
theorem toy_Hmd : ∀ s1, s1 < 7 → ∀ s2, s2 < 7 → ∀ k', k' < 7 → 0 < k' →
    toyMulDouble s1 (toyMulG k') s2 = toyMulG ((s1 + s2 * k') % 7) := by
  decide

set_option maxRecDepth 4000 in
/-- Witness for `ecdsa_sign_verify_roundtrip` on the `F_7` toy context:
private key 2, one-byte message `32`, nonce bytes `96`. -/
theorem ecdsa_sign_verify_roundtrip_witness :
    ((2 < toyCtx.n ∧ 2 ≠ 0 ∧ ∃ i, i < 1 ∧
        ecdsa_sign_try toyCtx 2 (ecdsa_reduce toyCtx 1 32).1
          ((fun _ => 96) i) ≠ none) →
      ecdsa_sign toyCtx 1 (fun _ => 96) 2 1 32 ≠ none) ∧
    (∀ r s param,
      ecdsa_sign toyCtx 1 (fun _ => 96) 2 1 32 = some (r, s, param) →
      s ≠ 0 →
      ecdsa_verify toyCtx 1 32 r s (toyCtx.mulG 2) = true) :=
  @ecdsa_sign_verify_roundtrip 7 ⟨by norm_num⟩ toyCtx (by decide)
    (by decide) (by decide) (by decide) (by decide) (by decide)
    (by decide) (by decide) (by decide) (by decide)
    toy_Hnz toy_Hnegx toy_Hjd 1 (fun _ => 96) 2 1 32 (by norm_num)

set_option maxRecDepth 4000 in
/-- Counterexample to C1 as stated: on the `F_7` context, private key 1
and message byte `128` (which reduces to `m = 4`), the nonce `32`
(`k = 1`) makes `ecdsa_sign` succeed with `s = 0`, and `ecdsa_verify`
rejects the produced signature under the signer's public key. -/
theorem ecdsa_sign_verify_counterexample :
    ecdsa_sign toyCtx 1 (fun _ => 32) 1 1 128 = some (3, 0, 0) ∧
    ecdsa_verify toyCtx 1 128 3 0 (toyCtx.mulG 1) = false := by
  constructor
  · decide
  · decide

set_option maxRecDepth 4000 in
set_option maxHeartbeats 4000000 in
/-- Witness for `ecdsa_recover_roundtrip` on the `F_7` toy context: the
signature `(6, 2)` with recovery parameter 1, produced by signing the
one-byte message `32` under private key 2 with nonce bytes `96`,
recovers exactly the signer's public key; and a recovery parameter with
the high bit set is rejected when `r` is not below `p mod n`. -/
theorem ecdsa_recover_roundtrip_witness :
    ecdsa_recover toyCtx 1 32 6 2 1 = ecdsa_pubkey_create toyCtx 2 ∧
    ecdsa_recover toyCtx 1 32 5 3 2 = none :=
  ⟨(@ecdsa_recover_roundtrip 7 ⟨by norm_num⟩ toyCtx (by decide)
      (by decide) (by decide) (by decide) (by decide) (by decide)
      (by decide) (by decide) (by decide) (by decide) (by decide)
      toy_Hnz toy_Hneg toy_Hy toy_Hcurve toy_Hsqrt toy_Hmd
      1 (fun _ => 96) 2 1 32 (by norm_num)).2 6 2 1 (by decide)
      (by decide),
   (@ecdsa_recover_roundtrip 7 ⟨by norm_num⟩ toyCtx (by decide)
      (by decide) (by decide) (by decide) (by decide) (by decide)
      (by decide) (by decide) (by decide) (by decide) (by decide)
      toy_Hnz toy_Hneg toy_Hy toy_Hcurve toy_Hsqrt toy_Hmd
      1 (fun _ => 96) 2 1 32 (by norm_num)).1 5 3 2 (by decide)
      (by decide) (by decide) (by decide) (by decide) (by decide)
      (by decide)⟩

set_option maxRecDepth 4000 in
set_option maxHeartbeats 4000000 in
/-- Counterexample to C3 as stated: on the `F_7` context, signing the
message byte `128` under private key 1 with nonce `32` emits the
signature `(3, 0)` with parameter 0, which `ecdsa_recover` rejects
(`s = 0`), while the signer's public key exists. -/
theorem ecdsa_recover_counterexample :
    ecdsa_sign toyCtx 1 (fun _ => 32) 1 1 128 = some (3, 0, 0) ∧
    ecdsa_recover toyCtx 1 128 3 0 0 = none ∧
    ecdsa_pubkey_create toyCtx 1 = some (false, 3) := by
  refine ⟨by decide, by decide, by decide⟩

set_option maxRecDepth 4000 in
set_option maxHeartbeats 4000000 in
/-- Witness for `ecdsa_verify_checks` on the `F_7` toy context: a
signature with `r = 0` is rejected, and for the in-range signature
`(6, 2)` acceptance is equivalent to the non-affinized x-coordinate
comparison on `R = u1·G + u2·A`. -/
theorem ecdsa_verify_checks_witness :
    ecdsa_verify toyCtx 1 32 0 2 (toyMulG 2) = false ∧
    (ecdsa_verify toyCtx 1 32 6 2 (toyMulG 2) = true ↔
      (let Rj := toyCtx.jmulDouble
          (sc_mul toyCtx.n toyCtx.m toyCtx.kbits
            (ecdsa_reduce toyCtx 1 32).1 (sc_invert_var toyCtx.n 2).1)
          (toyMulG 2)
          (sc_mul toyCtx.n toyCtx.m toyCtx.kbits 6
            (sc_invert_var toyCtx.n 2).1)
       Rj.z ≠ 0 ∧ (Rj.x * (Rj.z ^ 2)⁻¹).val % toyCtx.n = 6)) :=
  ⟨(@ecdsa_verify_checks 7 ⟨by norm_num⟩ toyCtx (by decide) (by decide)
      (by decide) 1 32 0 2 (toyMulG 2)).1 (by decide),
   (@ecdsa_verify_checks 7 ⟨by norm_num⟩ toyCtx (by decide) (by decide)
      (by decide) 1 32 6 2 (toyMulG 2)).2 (by decide) (by decide)
      (by decide) (by decide) (by decide)⟩
